import Mathlib

set_option maxHeartbeats 1000000

/-! Shallow embedding of the EUDAMED XML generator core
    (src/nodejs/lib/schema.js and src/nodejs/lib/generator.js).

    JavaScript values are modelled by the inductive `JVal`; JavaScript objects
    become insertion ordered association lists (property assignment replaces
    the value in place when the key exists and appends otherwise, which is
    exactly the JS object insertion order semantics); `undefined` is
    `Option.none`; the file system and the path helpers of the schema loader
    are explicit parameters.  Every unbounded loop or recursion through the
    lookup tables carries an explicit fuel argument. -/

/-- JavaScript String.prototype.startsWith, over character lists. -/
def strStartsWith (s pat : String) : Bool :=
  pat.toList.isPrefixOf s.toList

/-- JavaScript String.prototype.endsWith, over character lists. -/
def strEndsWith (s pat : String) : Bool :=
  pat.toList.isSuffixOf s.toList

/-- Scan for the pattern as a prefix of some suffix of the list. -/
def containsAux (pat : List Char) : List Char → Bool
  | [] => pat.isEmpty
  | c :: rest => pat.isPrefixOf (c :: rest) || containsAux pat rest

/-- JavaScript String.prototype.includes, over character lists. -/
def strContains (s pat : String) : Bool :=
  containsAux pat.toList s.toList

/-- JavaScript s.split(":") as an elementary structural function over the
    character list (the generator only ever splits on the colon). -/
def splitColonAux : List Char → List Char → List String
  | [], acc => [String.mk acc.reverse]
  | c :: rest, acc =>
    if c == ':' then String.mk acc.reverse :: splitColonAux rest []
    else splitColonAux rest (c :: acc)

/-- JavaScript String.prototype.split with separator ":". -/
def jsSplitColon (s : String) : List String :=
  splitColonAux s.toList []

/-- Model of the JS idiom "s.split(c)[1] || s" used by generate for the
    local-name fallback: the second split component when it exists and is
    truthy (non empty), the whole string otherwise. -/
def jsFallbackLocal (s : String) : String :=
  match (jsSplitColon s)[1]? with
  | some t => if t == "" then s else t
  | none => s

/-- JavaScript parseInt on a string: optional sign followed by a longest
    leading digit run; `none` models NaN. -/
def parseIntJS (s : String) : Option Int :=
  let core := fun (l : List Char) (sign : Int) =>
    let ds := l.takeWhile Char.isDigit
    if ds.isEmpty then (none : Option Int)
    else some (sign * Int.ofNat (ds.foldl (fun a c => a * 10 + (c.toNat - 48)) 0))
  match s.toList.dropWhile (fun c => c == ' ') with
  | '-' :: rest => core rest (-1)
  | '+' :: rest => core rest 1
  | l => core l 1

/-- JavaScript values as produced by the XML parser and the YAML loader. -/
inductive JVal where
  | str : String → JVal
  | num : Int → JVal
  | bool : Bool → JVal
  | obj : List (String × JVal) → JVal
  | arr : List JVal → JVal
deriving Repr

/-- JavaScript truthiness of a value (empty string, 0 and false are falsy;
    every object and array is truthy). -/
def jsTruthy : JVal → Bool
  | JVal.str s => s ≠ ""
  | JVal.num n => n ≠ 0
  | JVal.bool b => b
  | JVal.obj _ => true
  | JVal.arr _ => true

/-- Truthiness of a possibly undefined value. -/
def jsTruthyO : Option JVal → Bool
  | some v => jsTruthy v
  | none => false

/-- Truthiness of a possibly undefined string. -/
def jsTruthyS : Option String → Bool
  | some s => s ≠ ""
  | none => false

/-- JavaScript string coercion as used in template literals and property
    keys.  Objects and arrays never flow into the coercions the generator
    performs, so their images are irrelevant placeholders. -/
def jvalToString : JVal → String
  | JVal.str s => s
  | JVal.num n => toString n
  | JVal.bool b => if b then "true" else "false"
  | JVal.obj _ => "[object Object]"
  | JVal.arr _ => ""

/-- JavaScript "a || b" over possibly undefined values. -/
def jsOr (a b : Option JVal) : Option JVal :=
  if jsTruthyO a then a else b

/-- Property read on an association list object (`undefined` when absent). -/
def objLookup (l : List (String × JVal)) (k : String) : Option JVal :=
  (l.find? (fun kv => kv.1 == k)).map (fun kv => kv.2)

/-- Property assignment on an association list object: replaces the value in
    place when the key is present, appends otherwise (JS insertion order). -/
def objSet : List (String × JVal) → String → JVal → List (String × JVal)
  | [], k, v => [(k, v)]
  | (k', v') :: rest, k, v =>
    if k' == k then (k, v) :: rest else (k', v') :: objSet rest k v

/-- Object.assign(target, source): assign every entry of the source, in
    order, onto the target. -/
def objAssign (t s : List (String × JVal)) : List (String × JVal) :=
  s.foldl (fun acc kv => objSet acc kv.1 kv.2) t

/-- Object.keys of an association list object. -/
def objKeysL (l : List (String × JVal)) : List String :=
  l.map (fun kv => kv.1)

/-- Property read on a JVal (non objects have no named properties the
    generator ever reads). -/
def objGetJ (v : JVal) (k : String) : Option JVal :=
  match v with
  | JVal.obj kvs => objLookup kvs k
  | _ => none

/-- Object.keys of a JVal; the generator only applies it to parsed objects. -/
def objKeysJ (v : JVal) : List String :=
  match v with
  | JVal.obj kvs => objKeysL kvs
  | _ => []

/-- Property read of a key known to be present (placeholder default). -/
def getJD (v : JVal) (k : String) : JVal :=
  (objGetJ v k).getD (JVal.str "")

/-- The spread idiom "\x7b ...el, _schema: s \x7d" attaching the owning schema
    document to a definition object. -/
def withSchemaV (v : JVal) (s : JVal) : JVal :=
  match v with
  | JVal.obj kvs => JVal.obj (objSet kvs "_schema" s)
  | v => v

/-- The same idiom when the schema may be undefined; assigning `undefined`
    in JS leaves the property absent for every read the generator performs,
    so an absent schema leaves the object unchanged. -/
def withSchemaO (v : JVal) (s : Option JVal) : JVal :=
  match s with
  | some sv => withSchemaV v sv
  | none => v

/-- ensureArray of schema.js: read the property whose key ends in
    ":keySuffix" or equals keySuffix and present its value as an array. -/
def ensureArray (root : JVal) (keySuffix : String) : List JVal :=
  match root with
  | JVal.obj kvs =>
    match kvs.find? (fun kv => strEndsWith kv.1 (":" ++ keySuffix) || kv.1 == keySuffix) with
    | some kv =>
      match kv.2 with
      | JVal.arr vs => vs
      | v => [v]
    | none => []
  | _ => []

/-- Lookup in a plain string-to-string map (nsMap, substitutions). -/
def lookupStr (l : List (String × String)) (k : String) : Option String :=
  (l.find? (fun kv => kv.1 == k)).map (fun kv => kv.2)

/-- The SchemaContext lookup tables of schema.js. -/
structure SchemaContext where
  basePath : String
  schemas : List (String × JVal)
  elements : List (String × JVal)
  types : List (String × JVal)
  groups : List (String × JVal)
  processedFiles : List String
deriving Repr

/-- getElement of schema.js: exact (truthy) hit first, then a scan of all
    registered keys for one ending in "\x7dlocalName" or equal to it. -/
def getElement (ctx : SchemaContext) (name : String) : Option JVal :=
  if name == "" then none
  else
    let d0 := objLookup ctx.elements name
    if jsTruthyO d0 then d0
    else
      let localName := if strContains name ":" then ((jsSplitColon name)[1]?.getD "") else name
      match (objKeysL ctx.elements).find?
          (fun k => strEndsWith k ("\x7d" ++ localName) || k == localName) with
      | some k => objLookup ctx.elements k
      | none => none

/-- getGroup of schema.js, same shape as getElement. -/
def getGroup (ctx : SchemaContext) (name : String) : Option JVal :=
  if name == "" then none
  else
    let d0 := objLookup ctx.groups name
    if jsTruthyO d0 then d0
    else
      let localName := if strContains name ":" then ((jsSplitColon name)[1]?.getD "") else name
      match (objKeysL ctx.groups).find?
          (fun k => strEndsWith k ("\x7d" ++ localName) || k == localName) with
      | some k => objLookup ctx.groups k
      | none => none

/-- findType of schema.js: built-in xs:/xsd: names short circuit to a stub;
    a prefixed name is resolved through the referencing schema document's own
    xmlns declarations; final fallback is a bare local-name scan. -/
def findType (ctx : SchemaContext) (name : String) (currentSchema : Option JVal) : Option JVal :=
  if name == "" then none
  else if strStartsWith name "xs:" || strStartsWith name "xsd:" then
    some (JVal.obj [("isSimple", JVal.bool true), ("builtIn", JVal.bool true),
                    ("name", JVal.str name)])
  else
    let pr :=
      if strContains name ":" then
        let parts := jsSplitColon name
        let pfx := parts[0]?.getD ""
        let localName := parts[1]?.getD ""
        let nsv : Option JVal :=
          if jsTruthyO currentSchema then
            match currentSchema with
            | some cs => objGetJ cs ("@_xmlns:" ++ pfx)
            | none => none
          else none
        (localName, nsv)
      else (name, (none : Option JVal))
    let localName := pr.1
    let nsv := pr.2
    let key :=
      if jsTruthyO nsv then
        "\x7b" ++ jvalToString (nsv.getD (JVal.str "")) ++ "\x7d" ++ localName
      else localName
    let hit := objLookup ctx.types key
    if jsTruthyO hit then hit
    else
      match (objKeysL ctx.types).find?
          (fun k => strEndsWith k ("\x7d" ++ localName) || k == localName) with
      | some fk => objLookup ctx.types fk
      | none => none

/-- Lookup of a parsed schema document in the modelled file system (a map
    from resolved path to the result of parsing that file). -/
def fsLookup (fs : List (String × JVal)) (p : String) : Option JVal :=
  (fs.find? (fun e => e.1 == p)).map (fun e => e.2)

/-- Locate the root schema element key of a parsed document: the first key
    ending in ":schema" or equal to "schema". -/
def findSchemaKey (json : JVal) : Option String :=
  (objKeysJ json).find? (fun k => strEndsWith k ":schema" || k == "schema")

/-- One indexing pass of loadSchema: register every named item under its
    namespace-qualified key (bare name when the target namespace is falsy),
    and additionally under the bare name when that slot is still empty. -/
def indexEntities (table : List (String × JVal)) (schemaRoot : JVal)
    (tnsOpt : Option JVal) (items : List JVal) : List (String × JVal) :=
  items.foldl
    (fun tb it =>
      match objGetJ it "@_name" with
      | some nv =>
        if jsTruthy nv then
          let nm := jvalToString nv
          let key :=
            if jsTruthyO tnsOpt then
              "\x7b" ++ jvalToString (tnsOpt.getD (JVal.str "")) ++ "\x7d" ++ nm
            else nm
          let entry := withSchemaV it schemaRoot
          let tb1 := objSet tb key entry
          if jsTruthyO (objLookup tb1 nm) then tb1 else objSet tb1 nm entry
        else tb
      | none => tb)
    table

/-- The post-recursion indexing phase of loadSchema: elements, complex
    types, simple types, then groups of this document. -/
def indexSchema (ctx : SchemaContext) (schemaRoot : JVal) (tnsOpt : Option JVal) :
    SchemaContext :=
  let c1 := { ctx with
    elements := indexEntities ctx.elements schemaRoot tnsOpt (ensureArray schemaRoot "element") }
  let c2 := { c1 with
    types := indexEntities c1.types schemaRoot tnsOpt (ensureArray schemaRoot "complexType") }
  let c3 := { c2 with
    types := indexEntities c2.types schemaRoot tnsOpt (ensureArray schemaRoot "simpleType") }
  { c3 with
    groups := indexEntities c3.groups schemaRoot tnsOpt (ensureArray schemaRoot "group") }

mutual

/-- loadSchema of schema.js.  `resolveP` models path.resolve against the
    context base path, `dirnameP` and `joinP` model path.dirname and
    path.join for import locations, `fs` is the file system as a map from
    resolved path to parsed document.  An already processed resolved path
    returns the context unchanged; a missing file or a document without a
    schema root is skipped; otherwise the file is marked processed, its root
    recorded, every import/include location loaded recursively, and finally
    this document's own entities are indexed. -/
def loadSchema (resolveP : String → String → String) (dirnameP : String → String)
    (joinP : String → String → String) (fs : List (String × JVal))
    (fuel : Nat) (ctx : SchemaContext) (filePath : String) : SchemaContext :=
  match fuel with
  | 0 => ctx
  | fuel + 1 =>
    let fullPath := resolveP ctx.basePath filePath
    if ctx.processedFiles.contains fullPath then ctx
    else
      match fsLookup fs fullPath with
      | none => ctx
      | some json =>
        match findSchemaKey json with
        | none => ctx
        | some schemaKey =>
          let schemaRoot := getJD json schemaKey
          let tnsOpt := objGetJ schemaRoot "@_targetNamespace"
          let tnsKey := match tnsOpt with
            | some v => jvalToString v
            | none => "undefined"
          let ctx1 := { ctx with
            processedFiles := fullPath :: ctx.processedFiles,
            schemas := objSet ctx.schemas tnsKey schemaRoot }
          let refs := ensureArray schemaRoot "import" ++ ensureArray schemaRoot "include"
          let ctx2 := loadRefs resolveP dirnameP joinP fs fuel (dirnameP filePath) ctx1 refs
          indexSchema ctx2 schemaRoot tnsOpt
termination_by (fuel, 0)

/-- The forEach over import/include references inside loadSchema: each
    reference with a truthy schemaLocation is loaded at the location joined
    onto the importing file's directory. -/
def loadRefs (resolveP : String → String → String) (dirnameP : String → String)
    (joinP : String → String → String) (fs : List (String × JVal))
    (fuel : Nat) (dir : String) (ctx : SchemaContext) (refs : List JVal) : SchemaContext :=
  match refs with
  | [] => ctx
  | r :: rest =>
    let ctx2 :=
      match objGetJ r "@_schemaLocation" with
      | some loc =>
        if jsTruthy loc then
          loadSchema resolveP dirnameP joinP fs fuel ctx (joinP dir (jvalToString loc))
        else ctx
      | none => ctx
    loadRefs resolveP dirnameP joinP fs fuel dir ctx2 rest
termination_by (fuel, refs.length + 1)

end

/-- getNamespaces of schema.js: walk every loaded schema root in insertion
    order and assign each "@_xmlns:p" declaration onto one accumulated
    prefix-to-URI object. -/
def getNamespaces (ctx : SchemaContext) : List (String × JVal) :=
  ctx.schemas.foldl
    (fun acc kv =>
      match kv.2 with
      | JVal.obj entries =>
        entries.foldl
          (fun a e =>
            if strStartsWith e.1 "@_xmlns:" then objSet a (e.1.drop 8) e.2 else a)
          acc
      | _ => acc)
    []

/-- The XMLGenerator instance state of generator.js (debug logging elided:
    it only writes to the console). -/
structure XMLGenerator where
  ctx : SchemaContext
  config : List (String × JVal)
  nsMap : List (String × String)
  substitutions : List (String × String)

/-- getValueFromConfig of generator.js: exact key lookup in the flat
    configuration (the debug logging elided). -/
def getValueFromConfig (g : XMLGenerator) (path : String) : Option JVal :=
  objLookup g.config path

/-- hasConfigPrefix of generator.js: some configuration key starts with the
    given string. -/
def hasConfigPrefix (g : XMLGenerator) (p : String) : Bool :=
  g.config.any (fun kv => strStartsWith kv.1 p)

/-- getPrefix of generator.js: nsMap lookup when the namespace is truthy;
    "this.nsMap[ns] || null" collapses an empty mapped prefix to null. -/
def getPrefix (nsMap : List (String × String)) (ns : Option JVal) : Option String :=
  if jsTruthyO ns then
    match lookupStr nsMap (jvalToString (ns.getD (JVal.str ""))) with
    | some p => if p == "" then none else some p
    | none => none
  else none

/-- The key construction "prefix ? prefix:name : name" (JS truthiness on
    the prefix). -/
def mkKey (pfx : Option String) (n : String) : String :=
  match pfx with
  | some p => if p == "" then n else p ++ ":" ++ n
  | none => n

/-- The namespace expression used for keys in both generate and
    processGroup: the definition's own targetNamespace, else the owning
    schema document's. -/
def elemNs (d : JVal) : Option JVal :=
  jsOr (objGetJ d "@_targetNamespace")
    (match objGetJ d "_schema" with
     | some s => if jsTruthy s then objGetJ s "@_targetNamespace" else none
     | none => none)

/-- The lookup-name coercion at the helper boundaries: getElement, getGroup
    and findType all begin with "if (!name) return null", so a falsy
    argument is represented by the empty string, which those helpers map to
    null. -/
def optToName (o : Option JVal) : String :=
  match o with
  | some v => if jsTruthy v then jvalToString v else ""
  | none => ""

/-- processAttributes of generator.js: for each declared attribute with a
    truthy name, a truthy fixed value is emitted unconditionally; otherwise
    the configuration is probed at path/@name only (the bare-name fallback
    probe is commented out in the source) and the attribute is emitted
    exactly when that probe finds a value. -/
def processAttributes (g : XMLGenerator) (parentDef : JVal) (currentPath : String)
    (resultObj : List (String × JVal)) : List (String × JVal) :=
  (ensureArray parentDef "attribute").foldl
    (fun res attr =>
      match objGetJ attr "@_name" with
      | some nv =>
        if jsTruthy nv then
          let n := jvalToString nv
          match objGetJ attr "@_fixed" with
          | some fv =>
            if jsTruthy fv then objSet res ("@_" ++ n) fv
            else
              match getValueFromConfig g (currentPath ++ "/@" ++ n) with
              | some v => objSet res ("@_" ++ n) v
              | none => res
          | none =>
            match getValueFromConfig g (currentPath ++ "/@" ++ n) with
            | some v => objSet res ("@_" ++ n) v
            | none => res
        else res
      | none => res)
    resultObj

/-- The array test of processGroup: maxOccurs === "unbounded" or
    parseInt(maxOccurs) > 1 (NaN compares false). -/
def isArrayOccurs (mo : Option JVal) : Bool :=
  (match mo with
   | some (JVal.str s) => s == "unbounded"
   | _ => false) ||
  (match mo with
   | some v =>
     match parseIntJS (jvalToString v) with
     | some n => n > 1
     | none => false
   | none => false)

/-- The indexed configuration path probed for one array occurrence. -/
def itemIdxPath (currentPath elName : String) (idx : Nat) : String :=
  currentPath ++ "/" ++ elName ++ "[" ++ toString idx ++ "]"

/-- The ref resolution step for one element declaration inside processGroup:
    apply the substitution table to a truthy ref and resolve it through
    getElement with the local-name fallback; without a ref the declaration
    itself is the target. -/
def resolveRefTarget (g : XMLGenerator) (el : JVal) : Option (JVal × Option JVal) :=
  let nameO := objGetJ el "@_name"
  let refO : Option String :=
    match objGetJ el "@_ref" with
    | some rv =>
      if jsTruthy rv then
        let rs := jvalToString rv
        match lookupStr g.substitutions rs with
        | some sub => if sub == "" then some rs else some sub
        | none => some rs
      else none
    | none => none
  match refO with
  | some r =>
    let d0 := getElement g.ctx r
    let d1 :=
      if jsTruthyO d0 then d0
      else if strContains r ":" then
        getElement g.ctx ((jsSplitColon r)[1]?.getD "")
      else none
    match d1 with
    | some d => if jsTruthy d then some (d, objGetJ d "@_name") else none
    | none => none
  | none => some (el, nameO)

/-- The remaining part of the per-element resolution: skip a falsy name and
    attach the parent schema when the definition lacks one. -/
def resolveGroupElem (g : XMLGenerator) (parentDef el : JVal) :
    Option (JVal × String) :=
  match resolveRefTarget g el with
  | none => none
  | some (elementDef, elNameO) =>
    if jsTruthyO elNameO then
      let elName := jvalToString (elNameO.getD (JVal.str ""))
      let elementDef2 :=
        if !(jsTruthyO (objGetJ elementDef "_schema")) &&
            jsTruthyO (objGetJ parentDef "_schema") then
          withSchemaO elementDef (objGetJ parentDef "_schema")
        else elementDef
      some (elementDef2, elName)
    else none

/-- The type resolution step of processElement: the declared @_type looked
    up through findType when truthy, otherwise any inline complexType or
    simpleType child (tagged with the owning schema). -/
def resolveTypeDef (g : XMLGenerator) (elementDef : JVal) : Option JVal :=
  let typeName := objGetJ elementDef "@_type"
  let schemaOf := objGetJ elementDef "_schema"
  if jsTruthyO typeName then
    findType g.ctx (jvalToString (typeName.getD (JVal.str ""))) schemaOf
  else
    let ks := objKeysJ elementDef
    match ks.find? (fun k => strEndsWith k ":complexType" || k == "complexType") with
    | some ctKey => some (withSchemaO (getJD elementDef ctKey) schemaOf)
    | none =>
      match ks.find? (fun k => strEndsWith k ":simpleType" || k == "simpleType") with
      | some stKey => some (withSchemaO (getJD elementDef stKey) schemaOf)
      | none => none

mutual

/-- processElement of generator.js: resolve the declared or inline type;
    with no resolvable type, a built-in type, or a restriction/union/list
    simple type the element is a leaf read from configuration; otherwise a
    complex type. -/
def processElement (fuel : Nat) (g : XMLGenerator) (elementDef : JVal)
    (currentPath : String) : Option JVal :=
  match fuel with
  | 0 => none
  | fuel + 1 =>
    match resolveTypeDef g elementDef with
    | none => getValueFromConfig g currentPath
    | some td =>
      if jsTruthyO (objGetJ td "builtIn") then getValueFromConfig g currentPath
      else
        if !(jsTruthyO (objGetJ td "complexContent")) &&
            ((objKeysJ td).any (fun k =>
              strContains k "restriction" || strContains k "union" || strContains k "list")) then
          getValueFromConfig g currentPath
        else
          (processComplexType fuel g td currentPath).map JVal.obj
termination_by structural fuel

/-- processComplexType of generator.js: an extension processes its own
    attributes, merges the recursively processed base type content, then
    overlays its own content model; a direct type processes its attributes
    and its content model; an empty merged result is null. -/
def processComplexType (fuel : Nat) (g : XMLGenerator) (typeDef : JVal)
    (currentPath : String) : Option (List (String × JVal)) :=
  match fuel with
  | 0 => none
  | fuel + 1 =>
    let ks := objKeysJ typeDef
    match ks.find? (fun k => strEndsWith k ":complexContent" || k == "complexContent") with
    | some contentKey =>
      let cc := getJD typeDef contentKey
      match (objKeysJ cc).find? (fun k => strEndsWith k ":extension" || k == "extension") with
      | some extKey =>
        let extension := getJD cc extKey
        let r1 := processAttributes g extension currentPath []
        let baseType := objGetJ extension "@_base"
        let r2 :=
          if jsTruthyO baseType then
            match findType g.ctx (jvalToString (baseType.getD (JVal.str "")))
                (objGetJ typeDef "_schema") with
            | some baseDef =>
              if jsTruthy baseDef then
                match processComplexType fuel g baseDef currentPath with
                | some bc => objAssign r1 bc
                | none => r1
              else r1
            | none => r1
          else r1
        let r3 := objAssign r2
          (processGroup fuel g (withSchemaO extension (objGetJ typeDef "_schema")) currentPath)
        if r3.length > 0 then some r3 else none
      | none => none
    | none =>
      let r1 := processAttributes g typeDef currentPath []
      let r2 := objAssign r1 (processGroup fuel g typeDef currentPath)
      if r2.length > 0 then some r2 else none
termination_by structural fuel

/-- processGroup of generator.js: locate the first of sequence/choice/all,
    process its direct elements, then nested choices, nested sequences and
    named group references, merging everything into one flat result. -/
def processGroup (fuel : Nat) (g : XMLGenerator) (parentDef : JVal)
    (currentPath : String) : List (String × JVal) :=
  match fuel with
  | 0 => []
  | fuel + 1 =>
    let ks := objKeysJ parentDef
    let seqK := ks.find? (fun k => strEndsWith k ":sequence" || k == "sequence")
    let choK := ks.find? (fun k => strEndsWith k ":choice" || k == "choice")
    let allK := ks.find? (fun k => strEndsWith k ":all" || k == "all")
    match seqK <|> choK <|> allK with
    | none => []
    | some groupKey =>
      let container := getJD parentDef groupKey
      let r1 := processGroupElems fuel g parentDef (ensureArray container "element")
        currentPath []
      let r2 := processWrapped fuel g parentDef "choice" (ensureArray container "choice")
        currentPath r1
      let r3 := processWrapped fuel g parentDef "sequence" (ensureArray container "sequence")
        currentPath r2
      processGroupRefs fuel g (ensureArray container "group") currentPath r3
termination_by structural fuel

/-- The forEach over direct element declarations inside processGroup:
    resolve the name or ref (after substitution), skip the child when the
    ref is unresolvable or the name falsy, attach the parent schema when
    missing, and emit an array (index scan) or singleton child. -/
def processGroupElems (fuel : Nat) (g : XMLGenerator) (parentDef : JVal)
    (els : List JVal) (currentPath : String) (acc : List (String × JVal)) :
    List (String × JVal) :=
  match fuel with
  | 0 => acc
  | fuel + 1 =>
    match els with
    | [] => acc
    | el :: rest =>
      let acc2 :=
        match resolveGroupElem g parentDef el with
        | none => acc
        | some (elementDef2, elName) =>
          let key := mkKey (getPrefix g.nsMap (elemNs elementDef2)) elName
          if isArrayOccurs (objGetJ el "@_maxOccurs") then
            let items := arrayScan fuel g elementDef2 currentPath elName 0
            if items.length > 0 then objSet acc key (JVal.arr items) else acc
          else
            match processElement fuel g elementDef2 (currentPath ++ "/" ++ elName) with
            | some c => objSet acc key c
            | none => acc
      processGroupElems fuel g parentDef rest currentPath acc2
termination_by structural fuel

/-- The while(true) index scan of processGroup for array elements: probe
    path/name[idx]; at index 0 fall back to the bare singleton path when the
    indexed probe misses; stop at the first index with no configuration
    prefix or whose processed content is falsy (the source breaks in both
    the mandatory and the non-mandatory branch); a singleton fallback stops
    after its single item. -/
def arrayScan (fuel : Nat) (g : XMLGenerator) (elementDef : JVal)
    (currentPath elName : String) (idx : Nat) : List JVal :=
  match fuel with
  | 0 => []
  | fuel + 1 =>
    let itemPath0 := itemIdxPath currentPath elName idx
    let pr :=
      if idx == 0 && !(hasConfigPrefix g itemPath0) then
        let singletonPath := currentPath ++ "/" ++ elName
        if hasConfigPrefix g singletonPath then (singletonPath, true)
        else (itemPath0, false)
      else (itemPath0, false)
    if !(hasConfigPrefix g pr.1) then []
    else
      match processElement fuel g elementDef pr.1 with
      | some c =>
        if jsTruthy c then
          if pr.2 then [c]
          else c :: arrayScan fuel g elementDef currentPath elName (idx + 1)
        else []
      | none => []
termination_by structural fuel

/-- The forEach over nested choices or sequences inside processGroup: each
    nested group is wrapped under a bare key together with the parent
    schema and processed at the same path, merged into the result. -/
def processWrapped (fuel : Nat) (g : XMLGenerator) (parentDef : JVal)
    (wrapKey : String) (items : List JVal) (currentPath : String)
    (acc : List (String × JVal)) : List (String × JVal) :=
  match fuel with
  | 0 => acc
  | fuel + 1 =>
    match items with
    | [] => acc
    | ch :: rest =>
      let wrapped := JVal.obj
        ((wrapKey, ch) ::
          (match objGetJ parentDef "_schema" with
           | some s => [("_schema", s)]
           | none => []))
      let acc2 := objAssign acc (processGroup fuel g wrapped currentPath)
      processWrapped fuel g parentDef wrapKey rest currentPath acc2
termination_by structural fuel

/-- The forEach over named group references inside processGroup: a
    resolvable group definition is processed at the same path and merged;
    an unresolvable one is skipped. -/
def processGroupRefs (fuel : Nat) (g : XMLGenerator) (items : List JVal)
    (currentPath : String) (acc : List (String × JVal)) : List (String × JVal) :=
  match fuel with
  | 0 => acc
  | fuel + 1 =>
    match items with
    | [] => acc
    | it :: rest =>
      let groupDef := getGroup g.ctx (optToName (objGetJ it "@_ref"))
      let acc2 :=
        match groupDef with
        | some gd =>
          if jsTruthy gd then objAssign acc (processGroup fuel g gd currentPath) else acc
        | none => acc
      processGroupRefs fuel g rest currentPath acc2
termination_by structural fuel

end

/-- generate of generator.js: resolve the root element name exactly and
    through the local-name fallback, throwing when both fail (the one hard
    failure point); build the root key from the caller supplied name and
    the resolved element's namespace prefix; process the type override or
    the element itself; null content yields null, otherwise a single-key
    object. -/
def generate (fuel : Nat) (g : XMLGenerator) (rootElementName startPath : String)
    (typeOverride : Option String) : Except String (Option (List (String × JVal))) :=
  let d0 := getElement g.ctx rootElementName
  let rootElO := if jsTruthyO d0 then d0
    else getElement g.ctx (jsFallbackLocal rootElementName)
  if jsTruthyO rootElO then
    let rootEl := rootElO.getD (JVal.str "")
    let pfx := getPrefix g.nsMap (elemNs rootEl)
    let rootKey := mkKey pfx rootElementName
    let content : Option JVal :=
      if jsTruthyS typeOverride then
        let tov := typeOverride.getD ""
        match findType g.ctx tov (objGetJ rootEl "_schema") with
        | some typeDef =>
          if jsTruthy typeDef then
            match processComplexType fuel g typeDef startPath with
            | some entries => some (JVal.obj (objSet entries "@_xsi:type" (JVal.str tov)))
            | none => none
          else processElement fuel g rootEl startPath
        | none => processElement fuel g rootEl startPath
      else processElement fuel g rootEl startPath
    match content with
    | none => Except.ok none
    | some c => Except.ok (some [(rootKey, c)])
  else Except.error ("Root element not found: " ++ rootElementName)

/-! Basic lemmas about the JS string and object primitives. -/

theorem strStartsWith_append (p s : String) : strStartsWith (p ++ s) p = true := by
  rw [strStartsWith, List.isPrefixOf_iff_prefix]
  have h : (p ++ s).toList = p.toList ++ s.toList := by simp [String.toList]
  rw [h]
  exact List.prefix_append _ _

theorem strStartsWith_refl (p : String) : strStartsWith p p = true := by
  have h := strStartsWith_append p ""
  simpa using h

theorem strStartsWith_of_ext {k p : String} (s : String)
    (h : strStartsWith k (p ++ s) = true) : strStartsWith k p = true := by
  rw [strStartsWith, List.isPrefixOf_iff_prefix] at h ⊢
  have hps : (p ++ s).toList = p.toList ++ s.toList := by simp [String.toList]
  rw [hps] at h
  exact List.IsPrefix.trans (List.prefix_append _ _) h

theorem objLookup_objSet (l : List (String × JVal)) (k q : String) (v : JVal) :
    objLookup (objSet l k v) q = if k == q then some v else objLookup l q := by
  induction l with
  | nil => by_cases h : k == q <;> simp [objSet, objLookup, List.find?, h]
  | cons kv rest ih =>
    obtain ⟨k', v'⟩ := kv
    by_cases hk : k' == k
    · have hk' : k' = k := by simpa using hk
      subst hk'
      by_cases hq : k' == q
      · simp [objSet, objLookup, List.find?, hk, hq]
      · simp [objSet, objLookup, List.find?, hq]
    · by_cases hq : k' == q
      · have hq' : k' = q := by simpa using hq
        subst hq'
        have hk2 : ¬ k' = k := by simpa using hk
        have hkq : (k == k') = false := by
          simp only [beq_eq_false_iff_ne, ne_eq]
          intro h
          exact hk2 h.symm
        simp [objSet, objLookup, List.find?, hk, hq, hkq]
      · simp only [objSet, hk, if_neg (by simpa using hk)]
        simp only [objLookup, List.find?, hq]
        simp only [objLookup] at ih
        rw [ih]

/-- The value found for a key after folding assignments over a binding list
    is the last binding of that key, else whatever the accumulator held. -/
theorem objLookup_foldl_objSet (bs : List (String × JVal))
    (acc : List (String × JVal)) (p : String) :
    objLookup (bs.foldl (fun a e => objSet a e.1 e.2) acc) p =
      (match bs.reverse.find? (fun e => e.1 == p) with
       | some e => some e.2
       | none => objLookup acc p) := by
  induction bs generalizing acc with
  | nil => simp
  | cons e rest ih =>
    simp only [List.foldl_cons, List.reverse_cons]
    rw [ih]
    rw [List.find?_append]
    cases hfind : rest.reverse.find? (fun e => e.1 == p) with
    | some x => simp [hfind, Option.or]
    | none =>
      simp only [hfind, Option.or]
      rw [objLookup_objSet]
      by_cases he : e.1 == p
      · simp [List.find?, he]
      · simp [List.find?, he]

/-! C2: getNamespaces merge direction. -/

/-- The xmlns prefix declarations of one schema root, in key order. -/
def xmlnsOf (root : JVal) : List (String × JVal) :=
  match root with
  | JVal.obj entries =>
    entries.filterMap
      (fun e => if strStartsWith e.1 "@_xmlns:" then some (e.1.drop 8, e.2) else none)
  | _ => []

/-- All xmlns declarations of all loaded schema roots, in visit order. -/
def xmlnsBindings (ctx : SchemaContext) : List (String × JVal) :=
  (ctx.schemas.map (fun kv => xmlnsOf kv.2)).flatten

theorem foldl_guarded_objSet (entries : List (String × JVal))
    (acc : List (String × JVal)) :
    entries.foldl
      (fun a e => if strStartsWith e.1 "@_xmlns:" then objSet a (e.1.drop 8) e.2 else a)
      acc =
    (entries.filterMap
      (fun e => if strStartsWith e.1 "@_xmlns:" then some (e.1.drop 8, e.2) else none)).foldl
      (fun a e => objSet a e.1 e.2) acc := by
  induction entries generalizing acc with
  | nil => simp
  | cons e rest ih =>
    by_cases h : strStartsWith e.1 "@_xmlns:"
    · simp [h, ih]
    · simp [h, ih]

theorem getNamespaces_as_fold (ctx : SchemaContext) :
    getNamespaces ctx = (xmlnsBindings ctx).foldl (fun a e => objSet a e.1 e.2) [] := by
  rw [getNamespaces, xmlnsBindings, List.foldl_flatten, List.foldl_map]
  congr 1
  funext a kv
  cases kv.2 with
  | obj entries => exact foldl_guarded_objSet entries a
  | str s => simp [xmlnsOf]
  | num n => simp [xmlnsOf]
  | bool b => simp [xmlnsOf]
  | arr vs => simp [xmlnsOf]

/-- Concrete context for C2: two loaded schema roots declaring the same
    prefix p with different URIs. -/
def ctxC2 : SchemaContext :=
  { basePath := "", schemas :=
      [("ns1", JVal.obj [("@_xmlns:p", JVal.str "u1")]),
       ("ns2", JVal.obj [("@_xmlns:p", JVal.str "u2")])],
    elements := [], types := [], groups := [], processedFiles := [] }

/-- C2 counterexample: the claim says the first-written binding for a
    colliding prefix is kept, but getNamespaces keeps the binding of the
    last-visited schema: with ns1 declaring p=u1 before ns2 declaring p=u2,
    the merged mapping holds u2, not u1. -/
theorem C2_counterexample :
    objLookup (getNamespaces ctxC2) "p" = some (JVal.str "u2") ∧
    objLookup (getNamespaces ctxC2) "p" ≠ some (JVal.str "u1") := by
  constructor
  · rfl
  · intro h
    rw [show objLookup (getNamespaces ctxC2) "p" = some (JVal.str "u2") from rfl] at h
    simp at h

/-- C2 (amended): getNamespaces merges the namespace-prefix declarations of
    all loaded schema roots into one prefix-to-URI mapping, and when two
    loaded schemas declare the same prefix, the LAST-visited schema's
    binding is kept (each later write overwrites the earlier one): the
    merged value of every prefix is its last declaration in visit order. -/
theorem C2_getNamespaces_last_write_wins (ctx : SchemaContext) (p : String) :
    objLookup (getNamespaces ctx) p =
      ((xmlnsBindings ctx).reverse.find? (fun e => e.1 == p)).map (fun e => e.2) := by
  rw [getNamespaces_as_fold, objLookup_foldl_objSet]
  cases h : (xmlnsBindings ctx).reverse.find? (fun e => e.1 == p) with
  | some e => simp [h]
  | none => simp [h, objLookup]

/-! C1: the attribute probe of processAttributes. -/

/-- Generator fixture for the C1 counterexample: the configuration holds a
    value at the bare attribute path P/a and nothing at P/@a. -/
def gC1 : XMLGenerator :=
  { ctx := { basePath := "", schemas := [], elements := [], types := [],
             groups := [], processedFiles := [] },
    config := [("P/a", JVal.str "x")], nsMap := [], substitutions := [] }

/-- Attribute declaration named a, with no fixed value. -/
def attrC1 : JVal := JVal.obj [("@_name", JVal.str "a")]

/-- Parent definition declaring exactly the attribute a. -/
def parentC1 : JVal := JVal.obj [("attribute", attrC1)]

/-- C1 counterexample: the claim says the probe at path/@attrName falls
    back to path/attrName and the attribute is emitted when either probe
    finds a value.  Here the fallback probe P/a finds the value x, yet
    processAttributes emits nothing: the fallback probe does not exist in
    the code (it is commented out). -/
theorem C1_counterexample :
    getValueFromConfig gC1 "P/a" = some (JVal.str "x") ∧
    processAttributes gC1 parentC1 "P" [] = [] :=
  ⟨rfl, rfl⟩

/-- C1 (amended): for a declared attribute with no fixed value, only the
    configuration path path/@attrName is probed (there is no bare-name
    fallback probe), and the attribute-marked entry is emitted if and only
    if that single probe finds a value, which becomes the emitted value. -/
theorem C1_attribute_single_probe (g : XMLGenerator) (parentDef attr : JVal)
    (path n : String) (res : List (String × JVal))
    (hdecl : ensureArray parentDef "attribute" = [attr])
    (hname : objGetJ attr "@_name" = some (JVal.str n))
    (hn : n ≠ "")
    (hfixed : objGetJ attr "@_fixed" = none) :
    processAttributes g parentDef path res =
      (match getValueFromConfig g (path ++ "/@" ++ n) with
       | some v => objSet res ("@_" ++ n) v
       | none => res) := by
  rw [processAttributes, hdecl]
  simp only [List.foldl_cons, List.foldl_nil, hname, hfixed]
  rw [if_pos (by simpa [jsTruthy] using hn)]
  rfl

/-- Generator fixture for the C1 witness: a value at P/@a only. -/
def gC1w : XMLGenerator :=
  { gC1 with config := [("P/@a", JVal.str "y")] }

/-- C1 witness: the amended theorem applied at a concrete input where the
    @-probe hits, emitting the attribute entry. -/
theorem C1_witness :
    processAttributes gC1w parentC1 "P" [] = [("@_a", JVal.str "y")] :=
  (C1_attribute_single_probe gC1w parentC1 attrC1 "P" "a" [] rfl rfl
    (by decide) rfl).trans rfl

/-! C4: index contiguity of the array scan. -/

/-- The scan stops immediately at any index beyond 0 that has no
    configuration prefix (the singleton fallback only exists at index 0). -/
theorem arrayScan_missing (fuel : Nat) (g : XMLGenerator) (d : JVal)
    (path n : String) (idx : Nat) (hidx : idx ≠ 0)
    (hpref : hasConfigPrefix g (itemIdxPath path n idx) = false) :
    arrayScan fuel g d path n idx = [] := by
  cases fuel with
  | zero => rfl
  | succ f =>
    have hidx' : (idx == 0) = false := by
      simp only [beq_eq_false_iff_ne, ne_eq]
      exact hidx
    simp [arrayScan, hidx', hpref]

/-- C4: the array scan probes path/name[0], path/name[1], ... in order and
    stops at the first index yielding no content: an index other than 0
    with no configuration prefix produces nothing, and when index 0 is
    configured but index 1 is not, the scan emits at most the index 0 item
    (index 2 is never probed), so no sparse array is ever produced. -/
theorem C4_array_contiguity (fuel : Nat) (g : XMLGenerator) (d : JVal)
    (path n : String) :
    (∀ idx, idx ≠ 0 →
      hasConfigPrefix g (itemIdxPath path n idx) = false →
      arrayScan fuel g d path n idx = []) ∧
    (hasConfigPrefix g (itemIdxPath path n 0) = true →
     hasConfigPrefix g (itemIdxPath path n 1) = false →
     arrayScan (fuel + 1) g d path n 0 =
       (match processElement fuel g d (itemIdxPath path n 0) with
        | some c => if jsTruthy c then [c] else []
        | none => [])) := by
  constructor
  · intro idx hidx hpref
    exact arrayScan_missing fuel g d path n idx hidx hpref
  · intro h0 h1
    have hscan1 : arrayScan fuel g d path n 1 = [] :=
      arrayScan_missing fuel g d path n 1 (by decide) h1
    cases hpe : processElement fuel g d (itemIdxPath path n 0) with
    | none => simp [arrayScan, h0, hpe]
    | some c =>
      cases hc : jsTruthy c with
      | true => simp [arrayScan, h0, hpe, hc, hscan1]
      | false => simp [arrayScan, h0, hpe, hc]

/-- Generator fixture for the C4 witness: configuration supplies indices 0
    and 2 but not 1. -/
def gC4 : XMLGenerator :=
  { ctx := { basePath := "", schemas := [], elements := [], types := [],
             groups := [], processedFiles := [] },
    config := [("P/it[0]", JVal.str "a"), ("P/it[2]", JVal.str "c")],
    nsMap := [], substitutions := [] }

/-- Untyped element definition (a configuration leaf). -/
def dC4 : JVal := JVal.obj []

/-- C4 witness: with indices 0 and 2 configured but not 1, the scan yields
    only the index 0 item. -/
theorem C4_witness : arrayScan 3 gC4 dC4 "P" "it" 0 = [JVal.str "a"] :=
  ((C4_array_contiguity 2 gC4 dC4 "P" "it").2 (by decide) (by decide)).trans rfl

/-! C9: asymmetric handling of falsy configured scalars. -/

/-- An empty element list leaves the accumulated result unchanged. -/
theorem processGroupElems_nil (fuel : Nat) (g : XMLGenerator) (pd : JVal)
    (path : String) (a : List (String × JVal)) :
    processGroupElems fuel g pd [] path a = a := by
  cases fuel <;> simp [processGroupElems]

/-- C9: a falsy scalar (0, false or the empty string) produced for an
    array-mode item is discarded and terminates the index scan, so the
    array key is omitted, while the same value at a singleton position is
    emitted: the singleton test is content !== null, the array accumulation
    test is JS truthiness. -/
theorem C9_falsy_scalar_asymmetry (fuel : Nat) (g1 g2 : XMLGenerator)
    (pd1 pd2 el1 el2 v : JVal) (path n : String)
    (acc1 acc2 : List (String × JVal))
    (hv : jsTruthy v = false) (hn : n ≠ "")
    (a1 : objGetJ el1 "@_ref" = none)
    (a2 : objGetJ el1 "@_name" = some (JVal.str n))
    (a3 : objGetJ el1 "@_maxOccurs" = some (JVal.str "unbounded"))
    (a4 : objGetJ pd1 "_schema" = none)
    (a5 : hasConfigPrefix g1 (itemIdxPath path n 0) = true)
    (a6 : processElement fuel g1 el1 (itemIdxPath path n 0) = some v)
    (b1 : objGetJ el2 "@_ref" = none)
    (b2 : objGetJ el2 "@_name" = some (JVal.str n))
    (b3 : objGetJ el2 "@_maxOccurs" = none)
    (b4 : objGetJ pd2 "_schema" = none)
    (b5 : processElement fuel g2 el2 (path ++ "/" ++ n) = some v) :
    processGroupElems (fuel + 2) g1 pd1 [el1] path acc1 = acc1 ∧
    processGroupElems (fuel + 1) g2 pd2 [el2] path acc2 =
      objSet acc2 (mkKey (getPrefix g2.nsMap (elemNs el2)) n) v := by
  constructor
  · have hscan : arrayScan (fuel + 1) g1 el1 path n 0 = [] := by
      simp [arrayScan, a5, a6, hv]
    simp [processGroupElems, resolveGroupElem, resolveRefTarget, a1, a2, a3, a4, hn, jsTruthy,
      jsTruthyO, isArrayOccurs, hscan, processGroupElems_nil, jvalToString]
  · simp [processGroupElems, resolveGroupElem, resolveRefTarget, b1, b2, b3, b4, hn, jsTruthy,
      jsTruthyO, isArrayOccurs, b5, processGroupElems_nil, jvalToString]

/-- Generator fixture for the C9 witness, array side: numberOfReuses-style
    falsy value 0 at an indexed array path. -/
def gC9a : XMLGenerator :=
  { ctx := { basePath := "", schemas := [], elements := [], types := [],
             groups := [], processedFiles := [] },
    config := [("P/it[0]", JVal.num 0)], nsMap := [], substitutions := [] }

/-- Generator fixture for the C9 witness, singleton side: the same falsy
    value at the singleton path. -/
def gC9s : XMLGenerator :=
  { gC9a with config := [("P/it", JVal.num 0)] }

/-- Unbounded element declaration named it. -/
def elC9a : JVal :=
  JVal.obj [("@_name", JVal.str "it"), ("@_maxOccurs", JVal.str "unbounded")]

/-- Singleton element declaration named it. -/
def elC9s : JVal := JVal.obj [("@_name", JVal.str "it")]

/-- Parent definition carrying no schema pointer. -/
def pdC9 : JVal := JVal.obj []

/-- C9 witness: the configured 0 is dropped in array mode and emitted in
    singleton mode. -/
theorem C9_witness :
    processGroupElems 3 gC9a pdC9 [elC9a] "P" [] = [] ∧
    processGroupElems 2 gC9s pdC9 [elC9s] "P" [] = [("it", JVal.num 0)] := by
  have h := C9_falsy_scalar_asymmetry 1 gC9a gC9s pdC9 pdC9 elC9a elC9s
    (JVal.num 0) "P" "it" [] [] (by decide) (by decide) rfl rfl rfl rfl
    (by decide) rfl rfl rfl rfl rfl rfl
  exact ⟨h.1, h.2.trans rfl⟩

/-! C5: the single hard failure point. -/

/-- The content wrap-up of generate never produces an error value. -/
theorem generate_wrap_ne_error (c : Option JVal) (k : String) (e : String) :
    (match c with
     | none => (Except.ok none : Except String (Option (List (String × JVal))))
     | some x => Except.ok (some [(k, x)])) ≠ Except.error e := by
  cases c <;> simp

/-- C5: generate raises an error exactly when the root element resolves
    neither directly nor through the local-name fallback; an unresolvable
    element ref inside a content model merely skips that child, and the
    remaining siblings are still processed. -/
theorem generate_error_iff (fuel : Nat) (g : XMLGenerator) (r sp : String)
    (tov : Option String) :
    (∃ e, generate fuel g r sp tov = Except.error e) ↔
      (jsTruthyO (getElement g.ctx r) = false ∧
       jsTruthyO (getElement g.ctx (jsFallbackLocal r)) = false) := by
  cases hd0 : jsTruthyO (getElement g.ctx r) with
  | true =>
    simp only [Bool.true_eq_false, false_and, iff_false]
    rintro ⟨e, he⟩
    unfold generate at he
    simp only [hd0, reduceIte] at he
    exact generate_wrap_ne_error _ _ _ he
  | false =>
    cases hd1 : jsTruthyO (getElement g.ctx (jsFallbackLocal r)) with
    | true =>
      simp only [Bool.true_eq_false, and_false, iff_false]
      rintro ⟨e, he⟩
      unfold generate at he
      simp only [hd0, hd1, Bool.false_eq_true, Bool.true_eq_false, if_false,
        if_true, reduceIte] at he
      exact generate_wrap_ne_error _ _ _ he
    | false =>
      simp [generate, hd0, hd1]

/-- C5: generate raises an error exactly when the root element resolves
    neither directly nor through the local-name fallback; an unresolvable
    element ref inside a content model merely skips that child, and the
    remaining siblings are still processed. -/
theorem C5_error_only_for_root (fuel : Nat) (g : XMLGenerator)
    (r sp : String) (tov : Option String) (pd el : JVal) (rest : List JVal)
    (path : String) (acc : List (String × JVal)) (rv : JVal)
    (h1 : objGetJ el "@_ref" = some rv) (h2 : jsTruthy rv = true)
    (h3 : lookupStr g.substitutions (jvalToString rv) = none)
    (h4 : getElement g.ctx (jvalToString rv) = none)
    (h5 : strContains (jvalToString rv) ":" = false) :
    ((∃ e, generate fuel g r sp tov = Except.error e) ↔
      (jsTruthyO (getElement g.ctx r) = false ∧
       jsTruthyO (getElement g.ctx (jsFallbackLocal r)) = false)) ∧
    processGroupElems (fuel + 1) g pd (el :: rest) path acc =
      processGroupElems fuel g pd rest path acc := by
  constructor
  · exact generate_error_iff fuel g r sp tov
  · simp [processGroupElems, resolveGroupElem, resolveRefTarget, h1, h2, h3, h4, h5, jsTruthyO]

/-- Generator fixture for the C5 witness: empty schema index, one sibling
    element after an unresolvable ref. -/
def gC5 : XMLGenerator :=
  { ctx := { basePath := "", schemas := [], elements := [], types := [],
             groups := [], processedFiles := [] },
    config := [("P/ok", JVal.str "v")], nsMap := [], substitutions := [] }

/-- Element declaration whose ref resolves nowhere. -/
def elC5bad : JVal := JVal.obj [("@_ref", JVal.str "nope")]

/-- Sibling leaf element declaration that does resolve by name. -/
def elC5ok : JVal := JVal.obj [("@_name", JVal.str "ok")]

/-- C5 witness: the unresolvable root name errors, and a content model with
    an unresolvable ref still processes the following sibling. -/
theorem C5_witness :
    generate 2 gC5 "Nope" "P" none = Except.error "Root element not found: Nope" ∧
    processGroupElems 3 gC5 (JVal.obj []) [elC5bad, elC5ok] "P" [] =
      [("ok", JVal.str "v")] := by
  have h := C5_error_only_for_root 2 gC5 "Nope" "P" none (JVal.obj [])
    elC5bad [elC5ok] "P" [] (JVal.str "nope") rfl (by decide) rfl rfl (by decide)
  exact ⟨rfl, h.2.trans rfl⟩

/-! C10: the root key is built from the caller supplied name, child keys
    from the resolved element's own name. -/

/-- C10: generate's root key joins the resolved element's namespace prefix
    to the caller supplied rootElementName string verbatim, while a child
    emitted through a ref in processGroup is keyed by the resolved
    definition's own declared name rather than the ref string. -/
theorem C10_root_key_verbatim (fuel : Nat) (g : XMLGenerator)
    (rootName startPath : String) (re c : JVal)
    (pd el d c2 : JVal) (r n path : String) (acc : List (String × JVal))
    (h1 : getElement g.ctx rootName = some re) (h2 : jsTruthy re = true)
    (h3 : processElement fuel g re startPath = some c)
    (k1 : objGetJ el "@_ref" = some (JVal.str r)) (k2 : r ≠ "")
    (k3 : lookupStr g.substitutions r = none)
    (k4 : getElement g.ctx r = some d) (k5 : jsTruthy d = true)
    (k6 : objGetJ d "@_name" = some (JVal.str n)) (k7 : n ≠ "")
    (k8 : objGetJ pd "_schema" = none)
    (k9 : objGetJ el "@_maxOccurs" = none)
    (k10 : processElement fuel g d (path ++ "/" ++ n) = some c2) :
    generate fuel g rootName startPath none =
      Except.ok (some [(mkKey (getPrefix g.nsMap (elemNs re)) rootName, c)]) ∧
    processGroupElems (fuel + 1) g pd [el] path acc =
      objSet acc (mkKey (getPrefix g.nsMap (elemNs d)) n) c2 := by
  have hr : jsTruthy (JVal.str r) = true := by simp [jsTruthy, k2]
  have hn : jsTruthy (JVal.str n) = true := by simp [jsTruthy, k7]
  constructor
  · simp [generate, h1, h2, h3, jsTruthyO, jsTruthyS]
  · simp [processGroupElems, resolveGroupElem, resolveRefTarget, k1, k3, k4, k5, k6, k8, k9,
      k10, hr, hn, jsTruthyO, jvalToString, isArrayOccurs, processGroupElems_nil]

/-- Schema index fixture for the C10 witness: one namespaced element Foo. -/
def elFooC10 : JVal := JVal.obj [("@_name", JVal.str "Foo")]

/-- Generator fixture for the C10 witness. -/
def gC10 : XMLGenerator :=
  { ctx := { basePath := "", schemas := [],
             elements := [("\x7bN\x7dFoo", elFooC10)], types := [],
             groups := [], processedFiles := [] },
    config := [("S", JVal.str "v"), ("P/Foo", JVal.str "w")],
    nsMap := [], substitutions := [] }

/-- Element declaration referring to Foo through a prefixed ref. -/
def elrefC10 : JVal := JVal.obj [("@_ref", JVal.str "x:Foo")]

/-- C10 witness: the caller string x:Foo resolves through the local-name
    fallback to the element named Foo, the emitted root key is the verbatim
    x:Foo, while the child key for the same ref is the resolved name Foo. -/
theorem C10_witness :
    generate 1 gC10 "x:Foo" "S" none = Except.ok (some [("x:Foo", JVal.str "v")]) ∧
    processGroupElems 2 gC10 (JVal.obj []) [elrefC10] "P" [] =
      [("Foo", JVal.str "w")] := by
  have h := C10_root_key_verbatim 1 gC10 "x:Foo" "S" elFooC10 (JVal.str "v")
    (JVal.obj []) elrefC10 elFooC10 (JVal.str "w") "x:Foo" "Foo" "P" []
    rfl (by decide) rfl rfl (by decide) rfl rfl (by decide) rfl (by decide) rfl rfl rfl
  exact ⟨h.1.trans rfl, h.2.trans rfl⟩

/-! C6: base-type fields precede extension fields in the merged object. -/

/-- a occurs strictly before b in the list. -/
def keysBefore (l : List String) (a b : String) : Prop :=
  ∃ i j : Nat, i < j ∧ l[i]? = some a ∧ l[j]? = some b

theorem objAssign_nil (t : List (String × JVal)) : objAssign t [] = t := rfl

theorem objAssign_cons (t : List (String × JVal)) (kv : String × JVal)
    (rest : List (String × JVal)) :
    objAssign t (kv :: rest) = objAssign (objSet t kv.1 kv.2) rest := by
  simp [objAssign]

theorem objKeysL_cons (kv : String × JVal) (rest : List (String × JVal)) :
    objKeysL (kv :: rest) = kv.1 :: objKeysL rest := rfl

theorem objSet_keys (l : List (String × JVal)) (k : String) (v : JVal) :
    objKeysL (objSet l k v) =
      if k ∈ objKeysL l then objKeysL l else objKeysL l ++ [k] := by
  induction l with
  | nil => simp [objSet, objKeysL]
  | cons kv rest ih =>
    obtain ⟨k', v'⟩ := kv
    by_cases h : k' == k
    · have h' : k' = k := by simpa using h
      subst h'
      simp [objSet, objKeysL]
    · have h' : ¬ k' = k := by simpa using h
      have hne : ¬ k = k' := fun hh => h' hh.symm
      have hstep : objSet ((k', v') :: rest) k v = (k', v') :: objSet rest k v := by
        simp [objSet, h]
      rw [hstep, objKeysL_cons, objKeysL_cons]
      by_cases hm : k ∈ objKeysL rest
      · have hm2 : k ∈ k' :: objKeysL rest := List.mem_cons_of_mem k' hm
        rw [if_pos hm2, ih, if_pos hm]
      · have hm2 : k ∉ k' :: objKeysL rest := by
          intro hc
          rcases List.mem_cons.mp hc with hc | hc
          · exact hne hc
          · exact hm hc
        rw [if_neg hm2, ih, if_neg hm]
        rfl

theorem objSet_keys_mem (l : List (String × JVal)) (k a : String) (v : JVal)
    (h : a ∈ objKeysL l) : a ∈ objKeysL (objSet l k v) := by
  rw [objSet_keys]
  by_cases hk : k ∈ objKeysL l <;> simp [hk, h]

theorem objSet_keys_mem_self (l : List (String × JVal)) (k : String) (v : JVal) :
    k ∈ objKeysL (objSet l k v) := by
  rw [objSet_keys]
  by_cases hk : k ∈ objKeysL l <;> simp [hk]

theorem objAssign_keys_mem_left (t s : List (String × JVal)) (a : String)
    (h : a ∈ objKeysL t) : a ∈ objKeysL (objAssign t s) := by
  induction s generalizing t with
  | nil => simpa [objAssign_nil] using h
  | cons kv rest ih =>
    rw [objAssign_cons]
    exact ih (objSet t kv.1 kv.2) (objSet_keys_mem t kv.1 a kv.2 h)

theorem objAssign_keys_mem_right (t s : List (String × JVal)) (a : String)
    (h : a ∈ objKeysL s) : a ∈ objKeysL (objAssign t s) := by
  induction s generalizing t with
  | nil => simp [objKeysL] at h
  | cons kv rest ih =>
    rw [objKeysL_cons, List.mem_cons] at h
    rw [objAssign_cons]
    rcases h with h | h
    · subst h
      exact objAssign_keys_mem_left (objSet t kv.1 kv.2) rest kv.1
        (objSet_keys_mem_self t kv.1 kv.2)
    · exact ih (objSet t kv.1 kv.2) h

/-- Merging appends only new keys, drawn from the source, after the
    target's keys. -/
theorem objAssign_keys_split (s t : List (String × JVal)) :
    ∃ ex, objKeysL (objAssign t s) = objKeysL t ++ ex ∧
      ∀ a ∈ ex, a ∈ objKeysL s ∧ a ∉ objKeysL t := by
  induction s generalizing t with
  | nil => exact ⟨[], by simp [objAssign_nil], by simp⟩
  | cons kv rest ih =>
    rw [objAssign_cons]
    obtain ⟨ex, hex, hprop⟩ := ih (objSet t kv.1 kv.2)
    by_cases hk : kv.1 ∈ objKeysL t
    · refine ⟨ex, ?_, ?_⟩
      · rw [hex, objSet_keys, if_pos hk]
      · intro a ha
        obtain ⟨h1, h2⟩ := hprop a ha
        rw [objSet_keys, if_pos hk] at h2
        exact ⟨by rw [objKeysL_cons]; exact List.mem_cons_of_mem kv.1 h1, h2⟩
    · refine ⟨kv.1 :: ex, ?_, ?_⟩
      · rw [hex, objSet_keys, if_neg hk, List.append_assoc]
        rfl
      · intro a ha
        rcases List.mem_cons.mp ha with h | h
        · subst h
          exact ⟨by rw [objKeysL_cons]; exact List.mem_cons_self kv.1 (objKeysL rest), hk⟩
        · obtain ⟨h1, h2⟩ := hprop a h
          rw [objSet_keys, if_neg hk] at h2
          simp only [List.mem_append, List.mem_singleton] at h2
          exact ⟨by rw [objKeysL_cons]; exact List.mem_cons_of_mem kv.1 h1,
            fun hc => h2 (Or.inl hc)⟩

theorem keysBefore_append (l₁ l₂ : List String) (a b : String)
    (ha : a ∈ l₁) (_hb1 : b ∉ l₁) (hb2 : b ∈ l₂) :
    keysBefore (l₁ ++ l₂) a b := by
  obtain ⟨i, hi⟩ := List.mem_iff_getElem?.mp ha
  obtain ⟨j, hj⟩ := List.mem_iff_getElem?.mp hb2
  have hilt : i < l₁.length := (List.getElem?_eq_some.mp hi).1
  refine ⟨i, l₁.length + j, by omega, ?_, ?_⟩
  · rw [List.getElem?_append_left hilt]
    exact hi
  · rw [List.getElem?_append_right (by omega)]
    simpa using hj

/-- C6: when a complex type extends a resolvable base type and both base
    and extension contribute child fields, the merged result object holds
    every base-contributed key strictly before every key contributed only
    by the extension content model (Object.assign inserts base keys first,
    extension-only keys after them). -/
theorem C6_extension_field_order (fuel : Nat) (g : XMLGenerator)
    (typeDef cc extension baseDef bt : JVal) (path contentKey extKey : String)
    (baseContent : List (String × JVal))
    (hck : (objKeysJ typeDef).find?
      (fun k => strEndsWith k ":complexContent" || k == "complexContent") = some contentKey)
    (hcc : getJD typeDef contentKey = cc)
    (hek : (objKeysJ cc).find?
      (fun k => strEndsWith k ":extension" || k == "extension") = some extKey)
    (hext : getJD cc extKey = extension)
    (hbase : objGetJ extension "@_base" = some bt)
    (hbt : jsTruthy bt = true)
    (hfind : findType g.ctx (jvalToString bt) (objGetJ typeDef "_schema") = some baseDef)
    (hbd : jsTruthy baseDef = true)
    (hbc : processComplexType fuel g baseDef path = some baseContent) :
    ∀ k1 k2,
      k1 ∈ objKeysL baseContent →
      k2 ∈ objKeysL (processGroup fuel g
        (withSchemaO extension (objGetJ typeDef "_schema")) path) →
      k2 ∉ objKeysL baseContent →
      k2 ∉ objKeysL (processAttributes g extension path []) →
      processComplexType (fuel + 1) g typeDef path =
        some (objAssign
          (objAssign (processAttributes g extension path []) baseContent)
          (processGroup fuel g
            (withSchemaO extension (objGetJ typeDef "_schema")) path)) ∧
      keysBefore (objKeysL (objAssign
          (objAssign (processAttributes g extension path []) baseContent)
          (processGroup fuel g
            (withSchemaO extension (objGetJ typeDef "_schema")) path))) k1 k2 := by
  intro k1 k2 hk1 hk2 hk2b hk2a
  have hk1AB : k1 ∈ objKeysL
      (objAssign (processAttributes g extension path []) baseContent) :=
    objAssign_keys_mem_right _ _ k1 hk1
  have hk1R : k1 ∈ objKeysL (objAssign
      (objAssign (processAttributes g extension path []) baseContent)
      (processGroup fuel g
        (withSchemaO extension (objGetJ typeDef "_schema")) path)) :=
    objAssign_keys_mem_left _ _ k1 hk1AB
  have hlen : 0 < (objAssign
      (objAssign (processAttributes g extension path []) baseContent)
      (processGroup fuel g
        (withSchemaO extension (objGetJ typeDef "_schema")) path)).length := by
    rcases hR : objAssign
        (objAssign (processAttributes g extension path []) baseContent)
        (processGroup fuel g
          (withSchemaO extension (objGetJ typeDef "_schema")) path) with _ | ⟨kv, rest⟩
    · rw [hR] at hk1R
      simp [objKeysL] at hk1R
    · simp
  have heq : processComplexType (fuel + 1) g typeDef path =
      some (objAssign
        (objAssign (processAttributes g extension path []) baseContent)
        (processGroup fuel g
          (withSchemaO extension (objGetJ typeDef "_schema")) path)) := by
    simp [processComplexType, hck, hcc, hek, hext, hbase, hbt, hfind, hbd, hbc,
      jsTruthyO, hlen]
  obtain ⟨ex1, hex1, hprop1⟩ :=
    objAssign_keys_split baseContent (processAttributes g extension path [])
  obtain ⟨ex2, hex2, hprop2⟩ := objAssign_keys_split
    (processGroup fuel g (withSchemaO extension (objGetJ typeDef "_schema")) path)
    (objAssign (processAttributes g extension path []) baseContent)
  have hk2AB : k2 ∉ objKeysL
      (objAssign (processAttributes g extension path []) baseContent) := by
    rw [hex1]
    intro hc
    rcases List.mem_append.mp hc with hc | hc
    · exact hk2a hc
    · exact hk2b (hprop1 _ hc).1
  have hk2R : k2 ∈ objKeysL (objAssign
      (objAssign (processAttributes g extension path []) baseContent)
      (processGroup fuel g
        (withSchemaO extension (objGetJ typeDef "_schema")) path)) :=
    objAssign_keys_mem_right _ _ k2 hk2
  have hk2ex2 : k2 ∈ ex2 := by
    rw [hex2] at hk2R
    rcases List.mem_append.mp hk2R with hc | hc
    · exact absurd hc hk2AB
    · exact hc
  refine ⟨heq, ?_⟩
  rw [hex2]
  exact keysBefore_append _ _ _ _ hk1AB hk2AB hk2ex2

/-- Base type fixture for the C6 witness: one child element baseChild. -/
def baseTC6 : JVal :=
  JVal.obj [("sequence", JVal.obj [("element", JVal.obj [("@_name", JVal.str "baseChild")])])]

/-- Extension content object of the C6 witness. -/
def extObjC6 : JVal :=
  JVal.obj [("@_base", JVal.str "BaseT"),
            ("sequence", JVal.obj [("element", JVal.obj [("@_name", JVal.str "extChild")])])]

/-- Complex content wrapper of the C6 witness. -/
def ccC6 : JVal := JVal.obj [("extension", extObjC6)]

/-- Extension type fixture for the C6 witness. -/
def extTC6 : JVal := JVal.obj [("complexContent", ccC6)]

/-- Generator fixture for the C6 witness: the base type registered under
    its name and configuration for one base and one extension child. -/
def gC6 : XMLGenerator :=
  { ctx := { basePath := "", schemas := [], elements := [],
             types := [("BaseT", baseTC6)], groups := [], processedFiles := [] },
    config := [("P/baseChild", JVal.str "b"), ("P/extChild", JVal.str "e")],
    nsMap := [], substitutions := [] }

/-- C6 witness: the merged object lists the base field before the
    extension field even though the extension configuration appears second. -/
theorem C6_witness :
    processComplexType 6 gC6 extTC6 "P" =
      some [("baseChild", JVal.str "b"), ("extChild", JVal.str "e")] ∧
    keysBefore ["baseChild", "extChild"] "baseChild" "extChild" := by
  have h := C6_extension_field_order 5 gC6 extTC6 ccC6 extObjC6 baseTC6
    (JVal.str "BaseT") "P" "complexContent" "extension"
    [("baseChild", JVal.str "b")] rfl rfl rfl rfl rfl (by decide) rfl (by decide)
    rfl "baseChild" "extChild" (by decide) (by decide) (by decide) (by decide)
  exact ⟨h.1.trans rfl, h.2⟩

/-! C3: absence propagation. -/

/-- q is p extended by some (possibly empty) suffix. -/
def strExtends (q p : String) : Prop :=
  ∃ s, q.toList = p.toList ++ s

theorem strExtends_refl (p : String) : strExtends p p :=
  ⟨[], by simp⟩

theorem strExtends_push {q p : String} (b : String) (h : strExtends q p) :
    strExtends (q ++ b) p := by
  obtain ⟨s, hs⟩ := h
  have hs' : q.data = p.data ++ s := hs
  refine ⟨s ++ b.toList, ?_⟩
  show q.data ++ b.data = p.data ++ (s ++ b.toList)
  rw [hs', List.append_assoc]
  rfl

theorem strExtends_startsWith (q p : String) (h : strExtends q p) :
    strStartsWith q p = true := by
  obtain ⟨s, hs⟩ := h
  rw [strStartsWith, List.isPrefixOf_iff_prefix, hs]
  exact List.prefix_append _ _

/-- No configuration key starts with the given path. -/
def noCfgPref (g : XMLGenerator) (p : String) : Prop :=
  ∀ kv ∈ g.config, strStartsWith kv.1 p = false

theorem startsWith_trans_of_extends (k q p : String) (hq : strExtends q p)
    (h : strStartsWith k q = true) : strStartsWith k p = true := by
  obtain ⟨s, hs⟩ := hq
  rw [strStartsWith, List.isPrefixOf_iff_prefix] at h ⊢
  rw [hs] at h
  exact List.IsPrefix.trans (List.prefix_append _ _) h

theorem noCfgPref_hasPref (g : XMLGenerator) (p q : String)
    (hp : noCfgPref g p) (hq : strExtends q p) : hasConfigPrefix g q = false := by
  rw [hasConfigPrefix, List.any_eq_false]
  intro kv hkv
  intro hc
  have := startsWith_trans_of_extends kv.1 q p hq hc
  rw [hp kv hkv] at this
  exact Bool.false_ne_true this

theorem noCfgPref_lookup (g : XMLGenerator) (p q : String)
    (hp : noCfgPref g p) (hq : strExtends q p) : getValueFromConfig g q = none := by
  rw [getValueFromConfig, objLookup]
  cases hf : g.config.find? (fun kv => kv.1 == q) with
  | none => rfl
  | some kv =>
    have hmem := List.mem_of_find?_eq_some hf
    have hkq : kv.1 = q := by simpa using List.find?_some hf
    have hsw : strStartsWith kv.1 p = true := by
      rw [hkq]
      exact strExtends_startsWith q p hq
    rw [hp kv hmem] at hsw
    exact absurd hsw (by simp)

theorem noCfgPref_of_extends (g : XMLGenerator) (p q : String)
    (hp : noCfgPref g p) (hq : strExtends q p) : noCfgPref g q := by
  intro kv hkv
  cases hc : strStartsWith kv.1 q with
  | false => rfl
  | true =>
    have := startsWith_trans_of_extends kv.1 q p hq hc
    rw [hp kv hkv] at this
    exact absurd this (by simp)

mutual

/-- No object anywhere inside the value binds the key @_fixed. -/
def noFixedKey : JVal → Bool
  | JVal.str _ => true
  | JVal.num _ => true
  | JVal.bool _ => true
  | JVal.obj kvs => noFixedEntries kvs
  | JVal.arr vs => noFixedList vs

/-- noFixedKey over the entries of an object. -/
def noFixedEntries : List (String × JVal) → Bool
  | [] => true
  | (k, v) :: rest => (k != "@_fixed") && noFixedKey v && noFixedEntries rest

/-- noFixedKey over the items of an array. -/
def noFixedList : List JVal → Bool
  | [] => true
  | v :: rest => noFixedKey v && noFixedList rest

end

theorem noFixedEntries_mem (kvs : List (String × JVal)) (kv : String × JVal)
    (h : noFixedEntries kvs = true) (hm : kv ∈ kvs) :
    kv.1 ≠ "@_fixed" ∧ noFixedKey kv.2 = true := by
  induction kvs with
  | nil => cases hm
  | cons hd tl ih =>
    obtain ⟨hk, hv⟩ := hd
    simp only [noFixedEntries, Bool.and_eq_true, bne_iff_ne, ne_eq] at h
    rcases List.mem_cons.mp hm with hm | hm
    · subst hm
      exact ⟨h.1.1, h.1.2⟩
    · exact ih h.2 hm

theorem noFixedList_mem (vs : List JVal) (v : JVal)
    (h : noFixedList vs = true) (hm : v ∈ vs) : noFixedKey v = true := by
  induction vs with
  | nil => cases hm
  | cons hd tl ih =>
    simp only [noFixedList, Bool.and_eq_true] at h
    rcases List.mem_cons.mp hm with hm | hm
    · subst hm
      exact h.1
    · exact ih h.2 hm

theorem objLookup_mem (l : List (String × JVal)) (k : String) (w : JVal)
    (h : objLookup l k = some w) : ∃ kv ∈ l, kv.2 = w := by
  rw [objLookup] at h
  cases hf : l.find? (fun kv => kv.1 == k) with
  | none => rw [hf] at h; cases h
  | some kv =>
    rw [hf] at h
    exact ⟨kv, List.mem_of_find?_eq_some hf, by simpa using h⟩

theorem noFixed_objGetJ (v w : JVal) (k : String)
    (hv : noFixedKey v = true) (h : objGetJ v k = some w) : noFixedKey w = true := by
  cases v with
  | obj kvs =>
    obtain ⟨kv, hm, hw⟩ := objLookup_mem kvs k w h
    rw [← hw]
    exact (noFixedEntries_mem kvs kv (by simpa [noFixedKey] using hv) hm).2
  | str s => cases h
  | num n => cases h
  | bool b => cases h
  | arr vs => cases h

theorem noFixed_getJD (v : JVal) (k : String) (hv : noFixedKey v = true) :
    noFixedKey (getJD v k) = true := by
  rw [getJD]
  cases h : objGetJ v k with
  | none => simp [noFixedKey]
  | some w => simpa using noFixed_objGetJ v w k hv h

theorem noFixed_ensureArray (root : JVal) (sfx : String) (x : JVal)
    (hr : noFixedKey root = true) (hx : x ∈ ensureArray root sfx) :
    noFixedKey x = true := by
  cases root with
  | obj kvs =>
    rw [ensureArray] at hx
    cases hf : kvs.find? (fun kv => strEndsWith kv.1 (":" ++ sfx) || kv.1 == sfx) with
    | none => rw [hf] at hx; cases hx
    | some kv =>
      rw [hf] at hx
      have hm := List.mem_of_find?_eq_some hf
      obtain ⟨k1, v1⟩ := kv
      have hkv : noFixedKey v1 = true :=
        (noFixedEntries_mem kvs (k1, v1) (by simpa [noFixedKey] using hr) hm).2
      cases v1 with
      | arr vs =>
        exact noFixedList_mem vs x (by simpa [noFixedKey] using hkv) hx
      | str s =>
        simp only [List.mem_singleton] at hx
        subst hx; exact hkv
      | num n =>
        simp only [List.mem_singleton] at hx
        subst hx; exact hkv
      | bool b =>
        simp only [List.mem_singleton] at hx
        subst hx; exact hkv
      | obj kvs2 =>
        simp only [List.mem_singleton] at hx
        subst hx; exact hkv
  | str s => cases hx
  | num n => cases hx
  | bool b => cases hx
  | arr vs => cases hx

theorem noFixed_no_fixed_attr (attr : JVal) (h : noFixedKey attr = true) :
    objGetJ attr "@_fixed" = none := by
  cases attr with
  | obj kvs =>
    rw [objGetJ, objLookup]
    cases hf : kvs.find? (fun kv => kv.1 == "@_fixed") with
    | none => rfl
    | some kv =>
      have hm := List.mem_of_find?_eq_some hf
      have hk : kv.1 = "@_fixed" := by simpa using List.find?_some hf
      have := (noFixedEntries_mem kvs kv (by simpa [noFixedKey] using h) hm).1
      exact absurd hk this
  | str s => rfl
  | num n => rfl
  | bool b => rfl
  | arr vs => rfl

theorem noFixed_objSet (kvs : List (String × JVal)) (k : String) (v : JVal)
    (h : noFixedEntries kvs = true) (hk : k ≠ "@_fixed") (hv : noFixedKey v = true) :
    noFixedEntries (objSet kvs k v) = true := by
  induction kvs with
  | nil => simp [objSet, noFixedEntries, noFixedKey, hk, hv]
  | cons hd tl ih =>
    obtain ⟨k', v'⟩ := hd
    simp only [noFixedEntries, Bool.and_eq_true, bne_iff_ne, ne_eq] at h
    by_cases he : k' == k
    · simp [objSet, he, noFixedEntries, hk, hv, h.2]
    · simp only [objSet, he, Bool.false_eq_true, if_false, noFixedEntries,
        Bool.and_eq_true, bne_iff_ne, ne_eq]
      exact ⟨⟨h.1.1, h.1.2⟩, ih h.2⟩

theorem noFixed_withSchemaV (v sv : JVal) (hv : noFixedKey v = true)
    (hs : noFixedKey sv = true) : noFixedKey (withSchemaV v sv) = true := by
  cases v with
  | obj kvs =>
    simp only [withSchemaV, noFixedKey]
    exact noFixed_objSet kvs "_schema" sv (by simpa [noFixedKey] using hv) (by decide) hs
  | str s => exact hv
  | num n => exact hv
  | bool b => exact hv
  | arr vs => exact hv

theorem noFixed_withSchemaO (v : JVal) (s : Option JVal) (hv : noFixedKey v = true)
    (hs : ∀ sv, s = some sv → noFixedKey sv = true) :
    noFixedKey (withSchemaO v s) = true := by
  cases s with
  | none => exact hv
  | some sv => exact noFixed_withSchemaV v sv hv (hs sv rfl)

/-- All entities of the schema index are free of fixed-value bindings. -/
def ctxNoFixed (ctx : SchemaContext) : Prop :=
  (∀ kv ∈ ctx.elements, noFixedKey kv.2 = true) ∧
  (∀ kv ∈ ctx.types, noFixedKey kv.2 = true) ∧
  (∀ kv ∈ ctx.groups, noFixedKey kv.2 = true)


theorem noFixed_getElement (ctx : SchemaContext) (nm : String) (d : JVal)
    (hctx : ctxNoFixed ctx) (h : getElement ctx nm = some d) : noFixedKey d = true := by
  rw [getElement] at h
  split at h
  · cases h
  · dsimp only [] at h
    split at h
    · obtain ⟨kv, hm, hw⟩ := objLookup_mem _ _ _ h
      rw [← hw]
      exact hctx.1 kv hm
    · split at h
      · obtain ⟨kv, hm, hw⟩ := objLookup_mem _ _ _ h
        rw [← hw]
        exact hctx.1 kv hm
      · cases h

theorem noFixed_getGroup (ctx : SchemaContext) (nm : String) (d : JVal)
    (hctx : ctxNoFixed ctx) (h : getGroup ctx nm = some d) : noFixedKey d = true := by
  rw [getGroup] at h
  split at h
  · cases h
  · dsimp only [] at h
    split at h
    · obtain ⟨kv, hm, hw⟩ := objLookup_mem _ _ _ h
      rw [← hw]
      exact hctx.2.2 kv hm
    · split at h
      · obtain ⟨kv, hm, hw⟩ := objLookup_mem _ _ _ h
        rw [← hw]
        exact hctx.2.2 kv hm
      · cases h

theorem noFixed_findType (ctx : SchemaContext) (nm : String) (cs : Option JVal)
    (d : JVal) (hctx : ctxNoFixed ctx) (h : findType ctx nm cs = some d) :
    noFixedKey d = true := by
  rw [findType] at h
  split at h
  · cases h
  · split at h
    · injection h with h2
      rw [← h2]
      simp [noFixedKey, noFixedEntries, noFixedList]
    · dsimp only [] at h
      repeat' split at h
      all_goals first
        | cases h
        | (obtain ⟨kv, hm, hw⟩ := objLookup_mem _ _ _ h
           rw [← hw]
           exact hctx.2.1 kv hm)

theorem noFixed_resolveRefTarget (g : XMLGenerator) (el ed : JVal)
    (no : Option JVal) (hctx : ctxNoFixed g.ctx) (hel : noFixedKey el = true)
    (h : resolveRefTarget g el = some (ed, no)) : noFixedKey ed = true := by
  rw [resolveRefTarget] at h
  dsimp only [] at h
  split at h
  case h_2 =>
    injection h with h2
    rw [show ed = el from congrArg Prod.fst h2.symm]
    exact hel
  case h_1 r heq =>
    split at h
    case h_2 => cases h
    case h_1 d heqd =>
      split at h
      case isFalse => cases h
      case isTrue htr =>
        injection h with h2
        rw [show ed = d from congrArg Prod.fst h2.symm]
        split at heqd
        · exact noFixed_getElement g.ctx r d hctx heqd
        · split at heqd
          · exact noFixed_getElement g.ctx _ d hctx heqd
          · cases heqd

theorem noFixed_resolveGroupElem (g : XMLGenerator) (pd el ed2 : JVal)
    (nm : String) (hctx : ctxNoFixed g.ctx) (hpd : noFixedKey pd = true)
    (hel : noFixedKey el = true) (h : resolveGroupElem g pd el = some (ed2, nm)) :
    noFixedKey ed2 = true := by
  rw [resolveGroupElem] at h
  split at h
  · cases h
  case h_2 elementDef elNameO heq =>
    have hed : noFixedKey elementDef = true :=
      noFixed_resolveRefTarget g el elementDef elNameO hctx hel heq
    split at h
    · dsimp only [] at h
      injection h with h2
      have hfst : ed2 = (if !(jsTruthyO (objGetJ elementDef "_schema")) &&
          jsTruthyO (objGetJ pd "_schema") then
            withSchemaO elementDef (objGetJ pd "_schema")
          else elementDef) := congrArg Prod.fst h2.symm
      rw [hfst]
      split
      · exact noFixed_withSchemaO elementDef (objGetJ pd "_schema") hed
          (fun sv hsv => noFixed_objGetJ pd sv "_schema" hpd hsv)
      · exact hed
    · cases h

theorem noFixed_resolveTypeDef (g : XMLGenerator) (elementDef td : JVal)
    (hctx : ctxNoFixed g.ctx) (hnf : noFixedKey elementDef = true)
    (h : resolveTypeDef g elementDef = some td) : noFixedKey td = true := by
  rw [resolveTypeDef] at h
  dsimp only [] at h
  split at h
  · exact noFixed_findType g.ctx _ _ td hctx h
  · split at h
    · injection h with h2
      rw [← h2]
      exact noFixed_withSchemaO _ _ (noFixed_getJD elementDef _ hnf)
        (fun sv hsv => noFixed_objGetJ elementDef sv "_schema" hnf hsv)
    · split at h
      · injection h with h2
        rw [← h2]
        exact noFixed_withSchemaO _ _ (noFixed_getJD elementDef _ hnf)
          (fun sv hsv => noFixed_objGetJ elementDef sv "_schema" hnf hsv)
      · cases h

theorem foldl_id {α β : Type} (f : β → α → β) :
    ∀ (l : List α) (r : β), (∀ a ∈ l, ∀ b, f b a = b) → l.foldl f r = r := by
  intro l
  induction l with
  | nil => intro r h; rfl
  | cons hd tl ih =>
    intro r h
    rw [List.foldl_cons, h hd (List.mem_cons_self hd tl) r]
    exact ih r (fun a ha b => h a (List.mem_cons_of_mem hd ha) b)

/-- With no fixed attributes and no configuration under the path,
    processAttributes adds nothing. -/
theorem processAttributes_noop (g : XMLGenerator) (parentDef : JVal)
    (path : String) (res : List (String × JVal))
    (hnf : noFixedKey parentDef = true) (hp : noCfgPref g path) :
    processAttributes g parentDef path res = res := by
  rw [processAttributes]
  apply foldl_id
  intro attr hattr b
  have hnfa := noFixed_ensureArray parentDef "attribute" attr hnf hattr
  dsimp only []
  cases hname : objGetJ attr "@_name" with
  | none => rfl
  | some nv =>
    dsimp only []
    rw [noFixed_no_fixed_attr attr hnfa]
    have hlk : getValueFromConfig g (path ++ "/@" ++ jvalToString nv) = none :=
      noCfgPref_lookup g path _ hp
        (strExtends_push _ (strExtends_push _ (strExtends_refl path)))
    split
    · dsimp only []
      rw [hlk]
    · rfl

/-- The array scan yields nothing when no configuration key extends the
    parent path. -/
theorem arrayScan_noPref (fuel : Nat) (g : XMLGenerator) (d : JVal)
    (path elName : String) (idx : Nat) (hp : noCfgPref g path) :
    arrayScan fuel g d path elName idx = [] := by
  cases fuel with
  | zero => simp [arrayScan]
  | succ f =>
    have hip : hasConfigPrefix g (itemIdxPath path elName idx) = false := by
      apply noCfgPref_hasPref g path _ hp
      rw [itemIdxPath]
      exact strExtends_push _ (strExtends_push _ (strExtends_push _
        (strExtends_push _ (strExtends_push _ (strExtends_refl path)))))
    have hsp : hasConfigPrefix g (path ++ "/" ++ elName) = false := by
      apply noCfgPref_hasPref g path _ hp
      exact strExtends_push _ (strExtends_push _ (strExtends_refl path))
    simp [arrayScan, hip, hsp]

/-- The base-type merge step of processComplexType contributes nothing when
    every recursive result is empty. -/
theorem baseMerge_noop (f : Nat) (g : XMLGenerator) (bt cs : Option JVal)
    (path : String) (r1 : List (String × JVal)) (hctx : ctxNoFixed g.ctx)
    (hall : ∀ td, noFixedKey td = true → processComplexType f g td path = none) :
    (if jsTruthyO bt = true then
      match findType g.ctx (jvalToString (bt.getD (JVal.str ""))) cs with
      | some baseDef =>
        if jsTruthy baseDef = true then
          match processComplexType f g baseDef path with
          | some bc => objAssign r1 bc
          | none => r1
        else r1
      | none => r1
    else r1) = r1 := by
  split
  · split
    · next baseDef heqb =>
      have hn := hall baseDef (noFixed_findType g.ctx _ cs baseDef hctx heqb)
      split
      · rw [hn]
      · rfl
    · rfl
  · rfl

/-- With a fixed-free schema index and definition, and no configuration key
    extending the current path, every traversal function of the generator
    produces no content. -/
theorem noPrefix_pack (fuel : Nat) :
    (∀ g elementDef path, ctxNoFixed g.ctx → noFixedKey elementDef = true →
      noCfgPref g path → processElement fuel g elementDef path = none) ∧
    (∀ g typeDef path, ctxNoFixed g.ctx → noFixedKey typeDef = true →
      noCfgPref g path → processComplexType fuel g typeDef path = none) ∧
    (∀ g parentDef path, ctxNoFixed g.ctx → noFixedKey parentDef = true →
      noCfgPref g path → processGroup fuel g parentDef path = []) ∧
    (∀ g parentDef els path acc, ctxNoFixed g.ctx → noFixedKey parentDef = true →
      (∀ el ∈ els, noFixedKey el = true) → noCfgPref g path →
      processGroupElems fuel g parentDef els path acc = acc) ∧
    (∀ g parentDef wrapKey items path acc, ctxNoFixed g.ctx →
      noFixedKey parentDef = true → (∀ it ∈ items, noFixedKey it = true) →
      wrapKey ≠ "@_fixed" → noCfgPref g path →
      processWrapped fuel g parentDef wrapKey items path acc = acc) ∧
    (∀ g items path acc, ctxNoFixed g.ctx → noCfgPref g path →
      processGroupRefs fuel g items path acc = acc) := by
  induction fuel with
  | zero =>
    refine ⟨?_, ?_, ?_, ?_, ?_, ?_⟩ <;> intros <;>
      simp [processElement, processComplexType, processGroup, processGroupElems,
        processWrapped, processGroupRefs]
  | succ f ih =>
    obtain ⟨ihPE, ihPCT, ihPG, ihPGE, ihPW, ihPGR⟩ := ih
    refine ⟨?_, ?_, ?_, ?_, ?_, ?_⟩
    · -- processElement
      intro g elementDef path hctx hnf hp
      have hlk := noCfgPref_lookup g path path hp (strExtends_refl path)
      cases htd : resolveTypeDef g elementDef with
      | none => simp [processElement, htd, hlk]
      | some td =>
        have hnftd := noFixed_resolveTypeDef g elementDef td hctx hnf htd
        have hct := ihPCT g td path hctx hnftd hp
        simp [processElement, htd, hlk, hct]
    · -- processComplexType
      intro g typeDef path hctx hnf hp
      cases hck : (objKeysJ typeDef).find?
          (fun k => strEndsWith k ":complexContent" || k == "complexContent") with
      | none =>
        have h1 : processAttributes g typeDef path [] = [] :=
          processAttributes_noop g typeDef path [] hnf hp
        have h2 : processGroup f g typeDef path = [] := ihPG g typeDef path hctx hnf hp
        simp [processComplexType, hck, h1, h2, objAssign_nil]
      | some ck =>
        cases hek : (objKeysJ (getJD typeDef ck)).find?
            (fun k => strEndsWith k ":extension" || k == "extension") with
        | none => simp [processComplexType, hck, hek]
        | some ek =>
          have hextnf : noFixedKey (getJD (getJD typeDef ck) ek) = true :=
            noFixed_getJD _ _ (noFixed_getJD _ _ hnf)
          have h1 : processAttributes g (getJD (getJD typeDef ck) ek) path [] = [] :=
            processAttributes_noop g _ path [] hextnf hp
          have hgw : noFixedKey (withSchemaO (getJD (getJD typeDef ck) ek)
              (objGetJ typeDef "_schema")) = true :=
            noFixed_withSchemaO _ _ hextnf
              (fun sv hsv => noFixed_objGetJ typeDef sv "_schema" hnf hsv)
          have h2 : processGroup f g (withSchemaO (getJD (getJD typeDef ck) ek)
              (objGetJ typeDef "_schema")) path = [] := ihPG g _ path hctx hgw hp
          have hall : ∀ td, noFixedKey td = true →
              processComplexType f g td path = none :=
            fun td htd => ihPCT g td path hctx htd hp
          simp only [processComplexType, hck, hek, h1]
          rw [baseMerge_noop f g (objGetJ (getJD (getJD typeDef ck) ek) "@_base")
            (objGetJ typeDef "_schema") path [] hctx hall, h2]
          simp [objAssign_nil]
    · -- processGroup
      intro g parentDef path hctx hnf hp
      simp only [processGroup]
      split
      · rfl
      · next gk heq =>
        have hcont : noFixedKey (getJD parentDef gk) = true := noFixed_getJD _ _ hnf
        have hels : ∀ el ∈ ensureArray (getJD parentDef gk) "element",
            noFixedKey el = true :=
          fun el he => noFixed_ensureArray _ _ _ hcont he
        have hchs : ∀ it ∈ ensureArray (getJD parentDef gk) "choice",
            noFixedKey it = true :=
          fun it hi => noFixed_ensureArray _ _ _ hcont hi
        have hseqs : ∀ it ∈ ensureArray (getJD parentDef gk) "sequence",
            noFixedKey it = true :=
          fun it hi => noFixed_ensureArray _ _ _ hcont hi
        rw [ihPGE g parentDef _ path [] hctx hnf hels hp,
          ihPW g parentDef "choice" _ path [] hctx hnf hchs (by decide) hp,
          ihPW g parentDef "sequence" _ path [] hctx hnf hseqs (by decide) hp,
          ihPGR g _ path [] hctx hp]
    · -- processGroupElems
      intro g parentDef els path acc hctx hnf hels hp
      cases els with
      | nil => simp [processGroupElems]
      | cons el rest =>
        have hel := hels el (List.mem_cons_self el rest)
        have hrest : ∀ e ∈ rest, noFixedKey e = true :=
          fun e he => hels e (List.mem_cons_of_mem el he)
        have hrec : ∀ a, processGroupElems f g parentDef rest path a = a :=
          fun a => ihPGE g parentDef rest path a hctx hnf hrest hp
        simp only [processGroupElems]
        rw [hrec]
        cases hres : resolveGroupElem g parentDef el with
        | none => simp [hres]
        | some pr =>
          obtain ⟨ed2, nm⟩ := pr
          have hed2 := noFixed_resolveGroupElem g parentDef el ed2 nm hctx hnf hel hres
          have hchild : noCfgPref g (path ++ "/" ++ nm) :=
            noCfgPref_of_extends g path _ hp
              (strExtends_push _ (strExtends_push _ (strExtends_refl path)))
          have hpe := ihPE g ed2 (path ++ "/" ++ nm) hctx hed2 hchild
          have hscan := arrayScan_noPref f g ed2 path nm 0 hp
          simp [hres, hscan, hpe]
    · -- processWrapped
      intro g parentDef wrapKey items path acc hctx hnf hitems hwk hp
      cases items with
      | nil => simp [processWrapped]
      | cons ch rest =>
        have hch := hitems ch (List.mem_cons_self ch rest)
        have hrest : ∀ it ∈ rest, noFixedKey it = true :=
          fun it hi => hitems it (List.mem_cons_of_mem ch hi)
        have hwrapped : noFixedKey (JVal.obj ((wrapKey, ch) ::
            (match objGetJ parentDef "_schema" with
             | some s => [("_schema", s)]
             | none => []))) = true := by
          cases hs : objGetJ parentDef "_schema" with
          | none => simp [noFixedKey, noFixedEntries, noFixedList, hwk, hch]
          | some sv =>
            have hsv := noFixed_objGetJ parentDef sv "_schema" hnf hs
            simp [noFixedKey, noFixedEntries, noFixedList, hwk, hch, hsv]
        have hpg := ihPG g _ path hctx hwrapped hp
        simp only [processWrapped]
        rw [hpg, objAssign_nil]
        exact ihPW g parentDef wrapKey rest path acc hctx hnf hrest hwk hp
    · -- processGroupRefs
      intro g items path acc hctx hp
      cases items with
      | nil => simp [processGroupRefs]
      | cons it rest =>
        simp only [processGroupRefs]
        cases hgd : getGroup g.ctx (optToName (objGetJ it "@_ref")) with
        | none =>
          simp only [hgd]
          exact ihPGR g rest path acc hctx hp
        | some gd =>
          have hnfgd := noFixed_getGroup g.ctx _ gd hctx hgd
          have hpg := ihPG g gd path hctx hnfgd hp
          by_cases htr : jsTruthy gd = true
          · simp only [hgd, htr, if_true, hpg, objAssign_nil]
            exact ihPGR g rest path acc hctx hp
          · simp only [hgd, htr, Bool.false_eq_true, if_false]
            exact ihPGR g rest path acc hctx hp

/-- C3 (amended): provided no type reachable during generation declares an
    attribute with a fixed value, an element whose configuration path p has
    no configuration key extending it produces no content, and an element
    list processed under such a path contributes nothing to its parent: the
    whole subtree is absent from the output.  (A fixed attribute is emitted
    unconditionally and breaks this, see the counterexample.) -/
theorem C3_absence_propagation (fuel : Nat) (g : XMLGenerator)
    (elementDef pd : JVal) (els : List JVal) (path : String)
    (acc : List (String × JVal)) (hctx : ctxNoFixed g.ctx)
    (hnf : noFixedKey elementDef = true) (hpd : noFixedKey pd = true)
    (hels : ∀ el ∈ els, noFixedKey el = true) (hp : noCfgPref g path) :
    processElement fuel g elementDef path = none ∧
    processGroupElems fuel g pd els path acc = acc :=
  ⟨(noPrefix_pack fuel).1 g elementDef path hctx hnf hp,
   (noPrefix_pack fuel).2.2.2.1 g pd els path acc hctx hpd hels hp⟩

/-- Generator fixture for the C3 counterexample: empty configuration. -/
def gC3 : XMLGenerator :=
  { ctx := { basePath := "", schemas := [], elements := [], types := [],
             groups := [], processedFiles := [] },
    config := [], nsMap := [], substitutions := [] }

/-- Element with an inline complex type declaring a fixed attribute. -/
def defC3 : JVal :=
  JVal.obj [("complexType", JVal.obj [("attribute",
    JVal.obj [("@_name", JVal.str "v"), ("@_fixed", JVal.str "1.0")])])]

/-- C3 counterexample: the configuration is empty, so no key has the path Q
    as a prefix, yet the element is present in the output because its fixed
    attribute is emitted unconditionally. -/
theorem C3_counterexample :
    gC3.config = [] ∧
    processElement 3 gC3 defC3 "Q" = some (JVal.obj [("@_v", JVal.str "1.0")]) :=
  ⟨rfl, rfl⟩

/-- Generator fixture for the C3 witness: one configuration key outside the
    probed path. -/
def gC3w : XMLGenerator :=
  { gC3 with config := [("X/other", JVal.str "1")] }

/-- C3 witness: with no fixed attributes and no configuration key under Q,
    both the element content and the parent contribution vanish. -/
theorem C3_witness :
    processElement 2 gC3w (JVal.obj []) "Q" = none ∧
    processGroupElems 2 gC3w (JVal.obj [])
      [JVal.obj [("@_name", JVal.str "x")]] "Q" [] = [] := by
  have h := C3_absence_propagation 2 gC3w (JVal.obj []) (JVal.obj [])
    [JVal.obj [("@_name", JVal.str "x")]] "Q" []
    (by refine ⟨?_, ?_, ?_⟩ <;> intro kv hkv <;> cases hkv)
    (by decide) (by decide)
    (by
      intro el hel
      rw [List.mem_singleton] at hel
      subst hel
      decide)
    (by
      intro kv hkv
      have hkv2 : kv ∈ [("X/other", JVal.str "1")] := hkv
      rw [List.mem_singleton] at hkv2
      subst hkv2
      decide)
  exact h

/-! C7: preservation of bare-local-name registrations across loads. -/

theorem fsLookup_mem (fs : List (String × JVal)) (p : String) (j : JVal)
    (h : fsLookup fs p = some j) : ∃ e ∈ fs, e.2 = j := by
  rw [fsLookup] at h
  cases hf : fs.find? (fun e => e.1 == p) with
  | none => rw [hf] at h; cases h
  | some e =>
    rw [hf] at h
    exact ⟨e, List.mem_of_find?_eq_some hf, by simpa using h⟩

/-- Every schema document in the file system declares a truthy target
    namespace at its schema root. -/
def GoodFS (fs : List (String × JVal)) : Prop :=
  ∀ pd ∈ fs, ∀ k, findSchemaKey pd.2 = some k →
    jsTruthyO (objGetJ (getJD pd.2 k) "@_targetNamespace") = true

theorem brace_key_ne (b rest : String) (hb : strStartsWith b "\x7b" = false) :
    ("\x7b" ++ rest == b) = false := by
  cases he : ("\x7b" ++ rest == b) with
  | false => rfl
  | true =>
    have heq : "\x7b" ++ rest = b := by simpa using he
    have : strStartsWith b "\x7b" = true := by
      rw [← heq]
      exact strExtends_startsWith _ _ (strExtends_push rest (strExtends_refl "\x7b"))
    rw [hb] at this
    exact absurd this (by simp)

/-- One indexing pass never replaces a truthy value stored under a bare key
    (one that does not look like a namespaced key), provided the document
    declares a truthy target namespace. -/
theorem indexEntities_preserve (items : List JVal) (table : List (String × JVal))
    (root : JVal) (tnsOpt : Option JVal) (b : String) (v : JVal)
    (htns : jsTruthyO tnsOpt = true) (hb : strStartsWith b "\x7b" = false)
    (hv : jsTruthy v = true) (h : objLookup table b = some v) :
    objLookup (indexEntities table root tnsOpt items) b = some v := by
  induction items generalizing table with
  | nil => simpa [indexEntities] using h
  | cons it rest ih =>
    have hstep : ∀ tb : List (String × JVal), objLookup tb b = some v →
        objLookup (indexEntities tb root tnsOpt [it]) b = some v := by
      intro tb htb
      rw [indexEntities]
      simp only [List.foldl_cons, List.foldl_nil]
      cases hname : objGetJ it "@_name" with
      | none => exact htb
      | some nv =>
        by_cases htr : jsTruthy nv = true
        · simp only [htr, if_true, htns, getJD]
          set K := ("\x7b" ++ jvalToString (tnsOpt.getD (JVal.str "")) ++ "\x7d" ++
            jvalToString nv) with hK
          have hKb : (K == b) = false := by
            rw [hK]
            have := brace_key_ne b (jvalToString (tnsOpt.getD (JVal.str "")) ++
              ("\x7d" ++ jvalToString nv)) hb
            simpa [String.append_assoc] using this
          have h1 : objLookup (objSet tb K (withSchemaV it root)) b = some v := by
            rw [objLookup_objSet, hKb]
            simpa using htb
          by_cases hnb : jvalToString nv = b
          · rw [hnb]
            simp [h1, jsTruthyO, hv]
          · have hnb2 : ((jvalToString nv == b) = false) := by simpa using hnb
            split
            · exact h1
            · rw [objLookup_objSet, hnb2]
              simpa using h1
        · simp only [htr]
          rw [if_neg (by simp [htr])]
          exact htb
    have hone := hstep table h
    have hrw : indexEntities table root tnsOpt (it :: rest) =
        indexEntities (indexEntities table root tnsOpt [it]) root tnsOpt rest := by
      simp [indexEntities]
    rw [hrw]
    exact ih _ hone

/-- indexSchema never replaces a truthy value stored under a bare key in
    any of the three lookup tables when the document's target namespace is
    truthy. -/
theorem indexSchema_preserve (ctx : SchemaContext) (root : JVal)
    (tnsOpt : Option JVal) (b : String) (v : JVal)
    (htns : jsTruthyO tnsOpt = true) (hb : strStartsWith b "\x7b" = false)
    (hv : jsTruthy v = true) :
    (objLookup ctx.elements b = some v →
      objLookup (indexSchema ctx root tnsOpt).elements b = some v) ∧
    (objLookup ctx.types b = some v →
      objLookup (indexSchema ctx root tnsOpt).types b = some v) ∧
    (objLookup ctx.groups b = some v →
      objLookup (indexSchema ctx root tnsOpt).groups b = some v) := by
  rw [indexSchema]
  refine ⟨?_, ?_, ?_⟩ <;> intro hl
  · exact indexEntities_preserve _ _ _ _ _ _ htns hb hv hl
  · exact indexEntities_preserve _ _ _ _ _ _ htns hb hv
      (indexEntities_preserve _ _ _ _ _ _ htns hb hv hl)
  · exact indexEntities_preserve _ _ _ _ _ _ htns hb hv hl

/-- The three lookup tables preserve a stored binding from one state to
    another. -/
def tablesPreserve (st st' : SchemaContext) (b : String) (v : JVal) : Prop :=
  (objLookup st.elements b = some v → objLookup st'.elements b = some v) ∧
  (objLookup st.types b = some v → objLookup st'.types b = some v) ∧
  (objLookup st.groups b = some v → objLookup st'.groups b = some v)

theorem tablesPreserve_refl (st : SchemaContext) (b : String) (v : JVal) :
    tablesPreserve st st b v :=
  ⟨fun h => h, fun h => h, fun h => h⟩

theorem tablesPreserve_trans (s1 s2 s3 : SchemaContext) (b : String) (v : JVal)
    (h1 : tablesPreserve s1 s2 b v) (h2 : tablesPreserve s2 s3 b v) :
    tablesPreserve s1 s3 b v :=
  ⟨fun h => h2.1 (h1.1 h), fun h => h2.2.1 (h1.2.1 h), fun h => h2.2.2 (h1.2.2 h)⟩

/-- Loading any schema never replaces a truthy binding stored under a bare
    key, in any of the three tables, when every document in the file system
    declares a truthy target namespace. -/
theorem loadSchema_tablesPreserve (resolveP : String → String → String)
    (dirnameP : String → String) (joinP : String → String → String)
    (fs : List (String × JVal)) (b : String) (v : JVal)
    (hfs : GoodFS fs) (hb : strStartsWith b "\x7b" = false)
    (hv : jsTruthy v = true) :
    ∀ fuel st p,
      tablesPreserve st (loadSchema resolveP dirnameP joinP fs fuel st p) b v := by
  intro fuel
  induction fuel with
  | zero =>
    intro st p
    simp only [loadSchema]
    exact tablesPreserve_refl st b v
  | succ f ih =>
    have hRefs : ∀ refs dir st,
        tablesPreserve st (loadRefs resolveP dirnameP joinP fs f dir st refs) b v := by
      intro refs
      induction refs with
      | nil =>
        intro dir st
        simp only [loadRefs]
        exact tablesPreserve_refl st b v
      | cons r rest ihr =>
        intro dir st
        simp only [loadRefs]
        refine tablesPreserve_trans _ _ _ _ _ ?_ (ihr dir _)
        cases hloc : objGetJ r "@_schemaLocation" with
        | none =>
          simp only [hloc]
          exact tablesPreserve_refl st b v
        | some loc =>
          by_cases ht : jsTruthy loc = true
          · simp only [hloc, ht, if_true]
            exact ih st (joinP dir (jvalToString loc))
          · simp only [hloc, ht, Bool.false_eq_true, if_false]
            exact tablesPreserve_refl st b v
    intro st p
    simp only [loadSchema]
    split
    · exact tablesPreserve_refl st b v
    · split
      · exact tablesPreserve_refl st b v
      · next json hfsl =>
        split
        · exact tablesPreserve_refl st b v
        · next schemaKey hsk =>
          have htns : jsTruthyO (objGetJ (getJD json schemaKey)
              "@_targetNamespace") = true := by
            obtain ⟨e, hmem, he2⟩ := fsLookup_mem fs _ json hfsl
            have := hfs e hmem schemaKey (by rw [he2]; exact hsk)
            rw [he2] at this
            exact this
          set root := getJD json schemaKey with hroot
          set tns := objGetJ root "@_targetNamespace" with htnsdef
          exact ⟨fun h => (indexSchema_preserve _ root tns b v htns hb hv).1
              ((hRefs _ (dirnameP p) _).1 h),
            fun h => (indexSchema_preserve _ root tns b v htns hb hv).2.1
              ((hRefs _ (dirnameP p) _).2.1 h),
            fun h => (indexSchema_preserve _ root tns b v htns hb hv).2.2
              ((hRefs _ (dirnameP p) _).2.2 h)⟩

/-- C7 (amended): the bare-local-name invariant holds provided every loaded
    schema declares a truthy targetNamespace: a (truthy) entity already
    stored under a bare-local-name key, in any of the three lookup tables,
    is never replaced by a later loadSchema call, because namespaced primary
    keys start with a brace and the bare fallback write is guarded.  A
    schema without a targetNamespace stores its entities directly under the
    bare name and does overwrite (see the counterexample). -/
theorem C7_bare_key_first_registered (resolveP : String → String → String)
    (dirnameP : String → String) (joinP : String → String → String)
    (fs : List (String × JVal)) (fuel : Nat) (st : SchemaContext)
    (p b : String) (v : JVal) (hfs : GoodFS fs)
    (hb : strStartsWith b "\x7b" = false) (hv : jsTruthy v = true) :
    tablesPreserve st (loadSchema resolveP dirnameP joinP fs fuel st p) b v :=
  loadSchema_tablesPreserve resolveP dirnameP joinP fs b v hfs hb hv fuel st p

/-- Paths resolve to themselves in the loader fixtures. -/
def resC7 : String → String → String := fun _ q => q

/-- Directory of a path in the loader fixtures (never consulted). -/
def dirC7 : String → String := fun _ => ""

/-- Path join in the loader fixtures (never consulted). -/
def joinC7 : String → String → String := fun a bb => a ++ bb

/-- Element Foo of the first (namespaced) schema document. -/
def elC7A : JVal := JVal.obj [("@_name", JVal.str "Foo"), ("src", JVal.str "A")]

/-- Root of the first schema document, with a target namespace. -/
def rootC7A : JVal :=
  JVal.obj [("@_targetNamespace", JVal.str "N"), ("element", elC7A)]

/-- Element Foo of the second schema document. -/
def elC7B : JVal := JVal.obj [("@_name", JVal.str "Foo"), ("src", JVal.str "B")]

/-- Root of the second schema document, without a target namespace. -/
def rootC7B : JVal := JVal.obj [("element", elC7B)]

/-- File system with both documents. -/
def fsC7 : List (String × JVal) :=
  [("/A", JVal.obj [("schema", rootC7A)]), ("/B", JVal.obj [("schema", rootC7B)])]

/-- Empty loader state. -/
def st0C7 : SchemaContext :=
  { basePath := "", schemas := [], elements := [], types := [],
    groups := [], processedFiles := [] }

/-- State after loading the namespaced document. -/
def stC7A : SchemaContext := loadSchema resC7 dirC7 joinC7 fsC7 2 st0C7 "/A"

/-- State after additionally loading the namespace-free document. -/
def stC7B : SchemaContext := loadSchema resC7 dirC7 joinC7 fsC7 2 stC7A "/B"

/-- loadRefs with no references is the identity on the context. -/
theorem loadRefs_nil (resolveP : String → String → String)
    (dirnameP : String → String) (joinP : String → String → String)
    (fs : List (String × JVal)) (fuel : Nat) (dir : String)
    (ctx : SchemaContext) :
    loadRefs resolveP dirnameP joinP fs fuel dir ctx [] = ctx := by
  rw [loadRefs]

/-- Evaluated form of the state after loading the namespaced document. -/
theorem stC7A_eval :
    stC7A =
      { basePath := "", schemas := [("N", rootC7A)],
        elements := [("\x7bN\x7dFoo", withSchemaV elC7A rootC7A),
          ("Foo", withSchemaV elC7A rootC7A)],
        types := [], groups := [], processedFiles := ["/A"] } := by
  show loadSchema resC7 dirC7 joinC7 fsC7 2 st0C7 "/A" = _
  rw [loadSchema]
  show indexSchema (loadRefs resC7 dirC7 joinC7 fsC7 1 (dirC7 "/A")
      { basePath := "", schemas := [("N", rootC7A)], elements := [],
        types := [], groups := [], processedFiles := ["/A"] } [])
      rootC7A (some (JVal.str "N")) = _
  rw [loadRefs_nil]
  rfl

/-- C7 counterexample: loading /A registers Foo under the bare key through
    the fallback; loading /B (a schema with no targetNamespace) replaces
    the entity stored under that bare key, so first-registered does not
    always win. -/
theorem C7_counterexample :
    objLookup stC7A.elements "Foo" = some (withSchemaV elC7A rootC7A) ∧
    objLookup stC7B.elements "Foo" = some (withSchemaV elC7B rootC7B) ∧
    withSchemaV elC7A rootC7A ≠ withSchemaV elC7B rootC7B := by
  refine ⟨?_, ?_, ?_⟩
  · rw [stC7A_eval]
    rfl
  · show objLookup (loadSchema resC7 dirC7 joinC7 fsC7 2 stC7A "/B").elements
      "Foo" = _
    rw [stC7A_eval]
    rw [loadSchema]
    show objLookup (indexSchema (loadRefs resC7 dirC7 joinC7 fsC7 1 (dirC7 "/B")
        { basePath := "", schemas := [("N", rootC7A), ("undefined", rootC7B)],
          elements := [("\x7bN\x7dFoo", withSchemaV elC7A rootC7A),
            ("Foo", withSchemaV elC7A rootC7A)],
          types := [], groups := [], processedFiles := ["/B", "/A"] } [])
        rootC7B none).elements "Foo" = _
    rw [loadRefs_nil]
    rfl
  · intro h
    have h2 : (some (JVal.str "A") : Option JVal) = some (JVal.str "B") :=
      congrArg (fun w => objGetJ w "src") h
    exact absurd (JVal.str.inj (Option.some.inj h2)) (by decide)

/-- Pre-registered truthy entity under the bare key Foo. -/
def stC7W : SchemaContext :=
  { st0C7 with elements := [("Foo", JVal.obj [("marker", JVal.str "pre")])] }

/-- C7 witness: under a file system whose only schema declares a target
    namespace, the pre-registered bare-key binding survives a load. -/
theorem C7_witness :
    objLookup (loadSchema resC7 dirC7 joinC7 [("/A", JVal.obj [("schema", rootC7A)])]
      2 stC7W "/A").elements "Foo" = some (JVal.obj [("marker", JVal.str "pre")]) := by
  have h := C7_bare_key_first_registered resC7 dirC7 joinC7
    [("/A", JVal.obj [("schema", rootC7A)])] 2 stC7W "/A" "Foo"
    (JVal.obj [("marker", JVal.str "pre")])
    (by
      intro pd hpd k hk
      have h2 : pd ∈ [("/A", JVal.obj [("schema", rootC7A)])] := hpd
      rw [List.mem_singleton] at h2
      subst h2
      have h3 : some "schema" = some k := hk
      have h4 : k = "schema" := (Option.some.inj h3).symm
      subst h4
      decide)
    (by decide) (by decide)
  exact h.1 rfl

/-- Number of file-system paths not yet in the processed set of a context:
    the loader can do real work at most this many times. -/
def countU (fs : List (String × JVal)) (st : SchemaContext) : Nat :=
  (fs.map Prod.fst).countP (fun q => !(st.processedFiles.contains q))

/-- A successful file lookup means the path occurs in the file system. -/
theorem fsLookup_path_mem (fs : List (String × JVal)) (p : String) (j : JVal)
    (h : fsLookup fs p = some j) : p ∈ fs.map Prod.fst := by
  rw [fsLookup] at h
  cases hf : fs.find? (fun e => e.1 == p) with
  | none => rw [hf] at h; cases h
  | some e =>
    have hp : e.1 = p := by simpa using List.find?_some hf
    exact hp ▸ List.mem_map_of_mem Prod.fst (List.mem_of_find?_eq_some hf)

/-- loadSchema never removes a path from the processed set. -/
theorem loadSchema_processed_mono (resolveP : String → String → String)
    (dirnameP : String → String) (joinP : String → String → String)
    (fs : List (String × JVal)) :
    ∀ fuel st p q, q ∈ st.processedFiles →
      q ∈ (loadSchema resolveP dirnameP joinP fs fuel st p).processedFiles := by
  intro fuel
  induction fuel with
  | zero =>
    intro st p q hq
    rw [loadSchema]
    exact hq
  | succ f ih =>
    have hrefs : ∀ refs dir st q, q ∈ st.processedFiles →
        q ∈ (loadRefs resolveP dirnameP joinP fs f dir st refs).processedFiles := by
      intro refs
      induction refs with
      | nil =>
        intro dir st q hq
        rw [loadRefs_nil]
        exact hq
      | cons r rest ihr =>
        intro dir st q hq
        rw [loadRefs]
        apply ihr
        split
        · split
          · exact ih _ _ _ hq
          · exact hq
        · exact hq
    intro st p q hq
    rw [loadSchema]
    dsimp only
    split
    · exact hq
    · split
      · exact hq
      · split
        · exact hq
        · exact hrefs _ _ _ q (List.mem_cons_of_mem _ hq)

/-- The same monotonicity for the reference loader, given it for loadSchema
    at the same fuel. -/
theorem loadRefs_processed_mono (resolveP : String → String → String)
    (dirnameP : String → String) (joinP : String → String → String)
    (fs : List (String × JVal)) (fuel : Nat) :
    ∀ refs dir st q, q ∈ st.processedFiles →
      q ∈ (loadRefs resolveP dirnameP joinP fs fuel dir st refs).processedFiles := by
  intro refs
  induction refs with
  | nil =>
    intro dir st q hq
    rw [loadRefs_nil]
    exact hq
  | cons r rest ihr =>
    intro dir st q hq
    rw [loadRefs]
    apply ihr
    split
    · split
      · exact loadSchema_processed_mono resolveP dirnameP joinP fs fuel _ _ q hq
      · exact hq
    · exact hq

/-- A context whose processed set contains more paths has at most as many
    unprocessed files. -/
theorem countU_antitone (fs : List (String × JVal)) (st1 st2 : SchemaContext)
    (h : ∀ q, q ∈ st1.processedFiles → q ∈ st2.processedFiles) :
    countU fs st2 ≤ countU fs st1 := by
  rw [countU, countU]
  apply List.countP_mono_left
  intro a _ ha
  cases hc : st1.processedFiles.contains a with
  | false => rfl
  | true =>
    exfalso
    have hm : a ∈ st1.processedFiles := List.elem_iff.mp hc
    have hm2 : st2.processedFiles.contains a = true := List.elem_iff.mpr (h a hm)
    rw [hm2] at ha
    cases ha

/-- Marking a fresh file-system path processed strictly decreases the
    unprocessed count. -/
theorem countP_unprocessed_lt (L procs : List String) (fp : String)
    (hmem : fp ∈ L) (hfp : procs.contains fp = false) :
    L.countP (fun q => !((fp :: procs).contains q)) <
      L.countP (fun q => !(procs.contains q)) := by
  induction L with
  | nil => cases hmem
  | cons a L ih =>
    rw [List.countP_cons, List.countP_cons]
    by_cases hafp : fp = a
    · subst hafp
      have h1 : ((fp :: procs).contains fp) = true := by
        exact List.elem_iff.mpr (List.mem_cons_self _ _)
      have hsub : L.countP (fun q => !((fp :: procs).contains q)) ≤
          L.countP (fun q => !(procs.contains q)) := by
        apply List.countP_mono_left
        intro x _ hx
        cases hc : procs.contains x with
        | false => rfl
        | true =>
          exfalso
          have : ((fp :: procs).contains x) = true :=
            List.elem_iff.mpr (List.mem_cons_of_mem _ (List.elem_iff.mp hc))
          rw [this] at hx
          cases hx
      rw [h1, hfp]
      simp only [Bool.not_true, Bool.not_false, if_true]
      have c0 : (if (false = true) then 1 else 0) = 0 := rfl
      rw [c0]
      omega
    · have hmem2 : fp ∈ L := by
        rcases List.mem_cons.mp hmem with h | h
        · exact absurd h hafp
        · exact h
      have hcc : ((fp :: procs).contains a) = procs.contains a := by
        rw [List.contains_cons]
        have : (a == fp) = false := by
          cases hb : a == fp with
          | false => rfl
          | true => exact absurd (eq_of_beq hb).symm hafp
        rw [this]
        rfl
      rw [hcc]
      exact Nat.add_lt_add_right (ih hmem2) _

/-- A call whose resolved path is already processed returns the context
    unchanged. -/
theorem loadSchema_processed_id (resolveP : String → String → String)
    (dirnameP : String → String) (joinP : String → String → String)
    (fs : List (String × JVal)) (fuel : Nat) (st : SchemaContext) (p : String)
    (h : st.processedFiles.contains (resolveP st.basePath p) = true) :
    loadSchema resolveP dirnameP joinP fs (fuel + 1) st p = st := by
  rw [loadSchema]
  dsimp only
  rw [h]
  simp only [if_true]

/-- A call whose resolved path has no file is skipped. -/
theorem loadSchema_no_file (resolveP : String → String → String)
    (dirnameP : String → String) (joinP : String → String → String)
    (fs : List (String × JVal)) (fuel : Nat) (st : SchemaContext) (p : String)
    (hcf : st.processedFiles.contains (resolveP st.basePath p) = false)
    (hjson : fsLookup fs (resolveP st.basePath p) = none) :
    loadSchema resolveP dirnameP joinP fs (fuel + 1) st p = st := by
  rw [loadSchema]
  dsimp only
  rw [hcf, if_neg Bool.false_ne_true]
  simp only [hjson]

/-- A document without a schema root key is skipped. -/
theorem loadSchema_no_key (resolveP : String → String → String)
    (dirnameP : String → String) (joinP : String → String → String)
    (fs : List (String × JVal)) (fuel : Nat) (st : SchemaContext) (p : String)
    (json : JVal)
    (hcf : st.processedFiles.contains (resolveP st.basePath p) = false)
    (hjson : fsLookup fs (resolveP st.basePath p) = some json)
    (hkey : findSchemaKey json = none) :
    loadSchema resolveP dirnameP joinP fs (fuel + 1) st p = st := by
  rw [loadSchema]
  dsimp only
  rw [hcf, if_neg Bool.false_ne_true]
  simp only [hjson, hkey]

/-- The main branch of loadSchema, written out: record the schema, load
    references at one fuel less, then index this document's entities. -/
theorem loadSchema_main (resolveP : String → String → String)
    (dirnameP : String → String) (joinP : String → String → String)
    (fs : List (String × JVal)) (fuel : Nat) (st : SchemaContext) (p : String)
    (json : JVal) (schemaKey : String)
    (hcf : st.processedFiles.contains (resolveP st.basePath p) = false)
    (hjson : fsLookup fs (resolveP st.basePath p) = some json)
    (hkey : findSchemaKey json = some schemaKey) :
    loadSchema resolveP dirnameP joinP fs (fuel + 1) st p =
      indexSchema
        (loadRefs resolveP dirnameP joinP fs fuel (dirnameP p)
          { st with
            processedFiles := resolveP st.basePath p :: st.processedFiles,
            schemas := objSet st.schemas
              (match objGetJ (getJD json schemaKey) "@_targetNamespace" with
                | some v => jvalToString v
                | none => "undefined")
              (getJD json schemaKey) }
          (ensureArray (getJD json schemaKey) "import" ++
            ensureArray (getJD json schemaKey) "include"))
        (getJD json schemaKey)
        (objGetJ (getJD json schemaKey) "@_targetNamespace") := by
  rw [loadSchema]
  dsimp only
  rw [hcf, if_neg Bool.false_ne_true]
  simp only [hjson, hkey]

/-- Once the fuel exceeds the number of unprocessed file-system paths,
    loadSchema's result no longer depends on the fuel. -/
theorem loadSchema_stab (resolveP : String → String → String)
    (dirnameP : String → String) (joinP : String → String → String)
    (fs : List (String × JVal)) :
    ∀ n f g st p, countU fs st ≤ n → n ≤ f → n ≤ g →
      loadSchema resolveP dirnameP joinP fs (f + 1) st p =
        loadSchema resolveP dirnameP joinP fs (g + 1) st p := by
  intro n
  induction n with
  | zero =>
    intro f g st p hc hf hg
    cases hcf : st.processedFiles.contains (resolveP st.basePath p) with
    | true =>
      rw [loadSchema_processed_id resolveP dirnameP joinP fs f st p hcf,
        loadSchema_processed_id resolveP dirnameP joinP fs g st p hcf]
    | false =>
      cases hjson : fsLookup fs (resolveP st.basePath p) with
      | none =>
        rw [loadSchema_no_file resolveP dirnameP joinP fs f st p hcf hjson,
          loadSchema_no_file resolveP dirnameP joinP fs g st p hcf hjson]
      | some json =>
        exfalso
        have hpos : 0 < countU fs st := by
          rw [countU]
          refine List.countP_pos_iff.mpr
            ⟨resolveP st.basePath p, fsLookup_path_mem fs _ json hjson, ?_⟩
          rw [hcf]
          rfl
        omega
  | succ m ih =>
    intro f g st p hc hf hg
    obtain ⟨fp, rfl⟩ : ∃ fp, f = fp + 1 := ⟨f - 1, by omega⟩
    obtain ⟨gp, rfl⟩ : ∃ gp, g = gp + 1 := ⟨g - 1, by omega⟩
    have hT : ∀ refs dir st2, countU fs st2 ≤ m →
        loadRefs resolveP dirnameP joinP fs (fp + 1) dir st2 refs =
          loadRefs resolveP dirnameP joinP fs (gp + 1) dir st2 refs := by
      intro refs
      induction refs with
      | nil =>
        intro dir st2 hc2
        rw [loadRefs_nil, loadRefs_nil]
      | cons r rest ihr =>
        intro dir st2 hc2
        rw [loadRefs, loadRefs]
        split
        · split
          · rw [ih fp gp st2 _ hc2 (by omega) (by omega)]
            apply ihr
            refine le_trans (countU_antitone fs st2 _ ?_) hc2
            intro q hq
            exact loadSchema_processed_mono resolveP dirnameP joinP fs (gp + 1)
              st2 _ q hq
          · exact ihr dir st2 hc2
        · exact ihr dir st2 hc2
    cases hcf : st.processedFiles.contains (resolveP st.basePath p) with
    | true =>
      rw [loadSchema_processed_id resolveP dirnameP joinP fs (fp + 1) st p hcf,
        loadSchema_processed_id resolveP dirnameP joinP fs (gp + 1) st p hcf]
    | false =>
      cases hjson : fsLookup fs (resolveP st.basePath p) with
      | none =>
        rw [loadSchema_no_file resolveP dirnameP joinP fs (fp + 1) st p hcf hjson,
          loadSchema_no_file resolveP dirnameP joinP fs (gp + 1) st p hcf hjson]
      | some json =>
        cases hkey : findSchemaKey json with
        | none =>
          rw [loadSchema_no_key resolveP dirnameP joinP fs (fp + 1) st p json
              hcf hjson hkey,
            loadSchema_no_key resolveP dirnameP joinP fs (gp + 1) st p json
              hcf hjson hkey]
        | some schemaKey =>
          rw [loadSchema_main resolveP dirnameP joinP fs (fp + 1) st p json
              schemaKey hcf hjson hkey,
            loadSchema_main resolveP dirnameP joinP fs (gp + 1) st p json
              schemaKey hcf hjson hkey]
          refine congrArg (fun c => indexSchema c (getJD json schemaKey)
            (objGetJ (getJD json schemaKey) "@_targetNamespace")) (hT _ _ _ ?_)
          have hlt := countP_unprocessed_lt (fs.map Prod.fst) st.processedFiles
            (resolveP st.basePath p) (fsLookup_path_mem fs _ json hjson) hcf
          rw [countU] at hc
          rw [countU]
          show (fs.map Prod.fst).countP
            (fun q => !((resolveP st.basePath p :: st.processedFiles).contains q)) ≤ m
          omega

/-- C8: loadSchema is idempotent per resolved path (a call whose resolved
    path is already in the processed set returns the context unchanged with
    all tables intact), and on every finite file system, cyclic imports
    included, the transitive loading stabilizes: any two fuels that both
    exceed the number of unprocessed paths give the same result, which is
    the fuel embedding of termination of the recursion. -/
theorem C8_idempotent_terminating (resolveP : String → String → String)
    (dirnameP : String → String) (joinP : String → String → String)
    (fs : List (String × JVal)) :
    (∀ fuel st p, st.processedFiles.contains (resolveP st.basePath p) = true →
      loadSchema resolveP dirnameP joinP fs (fuel + 1) st p = st) ∧
    (∀ f g st p, countU fs st ≤ f → countU fs st ≤ g →
      loadSchema resolveP dirnameP joinP fs (f + 1) st p =
        loadSchema resolveP dirnameP joinP fs (g + 1) st p) := by
  constructor
  · intro fuel st p h
    exact loadSchema_processed_id resolveP dirnameP joinP fs fuel st p h
  · intro f g st p hf hg
    exact loadSchema_stab resolveP dirnameP joinP fs (countU fs st) f g st p
      le_rfl hf hg

/-- First schema document of a cyclic pair: imports the second. -/
def rootC8A : JVal :=
  JVal.obj [("@_targetNamespace", JVal.str "NA"),
    ("import", JVal.obj [("@_schemaLocation", JVal.str "B")])]

/-- Second schema document of a cyclic pair: imports the first. -/
def rootC8B : JVal :=
  JVal.obj [("@_targetNamespace", JVal.str "NB"),
    ("import", JVal.obj [("@_schemaLocation", JVal.str "A")])]

/-- File system whose two schemas import each other (a reference cycle). -/
def fsC8 : List (String × JVal) :=
  [("A", JVal.obj [("schema", rootC8A)]), ("B", JVal.obj [("schema", rootC8B)])]

/-- A context that has already processed path A. -/
def stC8P : SchemaContext := { st0C7 with processedFiles := ["A"] }

/-- C8 witness: a repeat load of an already-processed path is the identity,
    and on the cyclic two-schema file system any two fuels past the
    unprocessed count (here 2) agree. -/
theorem C8_witness :
    loadSchema resC7 dirC7 joinC7 fsC8 1 stC8P "A" = stC8P ∧
    loadSchema resC7 dirC7 joinC7 fsC8 3 st0C7 "A" =
      loadSchema resC7 dirC7 joinC7 fsC8 9 st0C7 "A" :=
  ⟨(C8_idempotent_terminating resC7 dirC7 joinC7 fsC8).1 0 stC8P "A" (by decide),
   (C8_idempotent_terminating resC7 dirC7 joinC7 fsC8).2 2 8 st0C7 "A"
     (by decide) (by decide)⟩
